import Mathlib

/-!
Shallow embedding of the saggitarius-path repository (two path drivers,
win32 and posix, sharing the segment-normalization and trim helpers),
together with proofs about the claims of the specification.

Strings are modelled as `List Char` (`Str`).  JavaScript regular
expressions used by the source are translated into the structural
decomposition functions they denote (leftmost match with the backtracking
priority of the JS engine); the translation of each regex is documented at
its definition site.
-/

set_option maxRecDepth 4000

/-- JavaScript strings, modelled as lists of characters. -/
abbrev Str := List Char

/-- The character class `[\\/]` used by the win32 driver's patterns. -/
def isSep (c : Char) : Bool := c == '\\' || c == '/'

/-- The character class `[/]` used by the posix driver's patterns. -/
def isSlash (c : Char) : Bool := c == '/'

/-- The character class `[a-zA-Z]` (drive letters). -/
def isLetter (c : Char) : Bool :=
  ('a' ≤ c && c ≤ 'z') || ('A' ≤ c && c ≤ 'Z')

/-- ASCII lower-casing of one character, the effect of JavaScript
`String.prototype.toLowerCase` on the ASCII range (the only characters the
drivers compare case-insensitively are drive letters and path segments). -/
def lowerChar (c : Char) : Char :=
  if 'A' ≤ c && c ≤ 'Z' then Char.ofNat (c.toNat + 32) else c

/-- `String.prototype.toLowerCase`, character-wise on the ASCII range. -/
def lowerStr (s : Str) : Str := s.map lowerChar

/-- JavaScript `s.split(c)` for a one-character separator `c`: `n`
occurrences of the separator yield `n + 1` (possibly empty) chunks. -/
def splitChar (c : Char) : Str → List Str
  | [] => [[]]
  | x :: xs =>
    if x = c then [] :: splitChar c xs
    else
      match splitChar c xs with
      | h :: t => (x :: h) :: t
      | [] => [[x]]

/-- JavaScript `s.split(re)` for a separator regex matching one maximal
nonempty run of characters satisfying `sep` (the win32 driver's
`split(/[\\\/]+/)`): a leading run yields a leading empty chunk, a trailing
run a trailing empty chunk.  The `inRun` flag records whether the previous
character belonged to the current separator run (so that a run of any
length contributes exactly one chunk boundary). -/
def splitRunsAux (sep : Char → Bool) : Bool → Str → List Str
  | _, [] => [[]]
  | inRun, x :: xs =>
    if sep x then
      if inRun then splitRunsAux sep true xs
      else [] :: splitRunsAux sep true xs
    else
      match splitRunsAux sep false xs with
      | h :: t => (x :: h) :: t
      | [] => [[x]]

def splitRuns (sep : Char → Bool) (s : Str) : List Str :=
  splitRunsAux sep false s

/-- JavaScript `array.join(c)` for a one-character separator. -/
def joinSep (c : Char) : List Str → Str
  | [] => []
  | [x] => x
  | x :: y :: t => x ++ c :: joinSep c (y :: t)

/-- Source (both drivers, identical copies): the loop body of
`normalizeArray(parts, allowAboveRoot)`, processing `parts` left to right
while `res` plays the role of the output array (`push` appends at the end,
`pop` drops the last element, `res[res.length - 1]` is the last element).
An empty part (JS falsy string) and `"."` are skipped. -/
def normalizeArrayLoop (allowAboveRoot : Bool) : List Str → List Str → List Str
  | [], res => res
  | p :: parts, res =>
    if p = [] ∨ p = ['.'] then normalizeArrayLoop allowAboveRoot parts res
    else if p = ['.', '.'] then
      if res ≠ [] ∧ res.getLast? ≠ some ['.', '.'] then
        normalizeArrayLoop allowAboveRoot parts res.dropLast
      else if allowAboveRoot then
        normalizeArrayLoop allowAboveRoot parts (res ++ [['.', '.']])
      else normalizeArrayLoop allowAboveRoot parts res
    else normalizeArrayLoop allowAboveRoot parts (res ++ [p])

/-- Source: `normalizeArray(parts, allowAboveRoot)` (win32.ts lines 43-64,
and the identical posix copy at lines 462-483). -/
def normalizeArray (parts : List Str) (allowAboveRoot : Bool) : List Str :=
  normalizeArrayLoop allowAboveRoot parts []

/-- Modelled from the spec's wording of the shared segment normalizer
(section 4.1): one step of the left-to-right scan with an output stack. -/
def normalizeArrayStep (allowAboveRoot : Bool) (res : List Str) (p : Str) :
    List Str :=
  if p = [] ∨ p = ['.'] then res
  else if p = ['.', '.'] then
    if res ≠ [] ∧ res.getLast? ≠ some ['.', '.'] then res.dropLast
    else if allowAboveRoot then res ++ [['.', '.']]
    else res
  else res ++ [p]

/-- Modelled from the spec's wording: the normalizer is the left fold of
the step function over the segments, starting from an empty stack. -/
def normalizeArraySpec (parts : List Str) (allowAboveRoot : Bool) :
    List Str :=
  parts.foldl (normalizeArrayStep allowAboveRoot) []

theorem normalizeArrayLoop_eq_foldl (allowAboveRoot : Bool) :
    ∀ (parts : List Str) (res : List Str),
      normalizeArrayLoop allowAboveRoot parts res =
        parts.foldl (normalizeArrayStep allowAboveRoot) res := by
  intro parts
  induction parts with
  | nil => intro res; rfl
  | cons p t ih =>
    intro res
    simp only [normalizeArrayLoop, List.foldl_cons, normalizeArrayStep]
    by_cases h1 : p = [] ∨ p = ['.']
    · simp [h1, ih]
    · by_cases h2 : p = ['.', '.']
      · by_cases h3 : res ≠ [] ∧ res.getLast? ≠ some ['.', '.']
        · simp [h1, h2, h3, ih]
        · cases allowAboveRoot <;> simp_all [normalizeArrayLoop, normalizeArrayStep] <;>
            split <;> simp_all
      · simp [h1, h2, ih]

/-- Claim C1: the shared segment normalizer `normalizeArray` scans left to
right keeping an output stack, skipping empty segments and `"."`, popping
on `".."` when the stack is non-empty with a non-`".."` top, otherwise
pushing `".."` exactly when `allowAboveRoot` is true, and pushing every
other segment as-is; in particular
`normalizeArray(["a",".","b",".."], false) = ["a"]`,
`normalizeArray(["..","a"], true) = ["..","a"]` and
`normalizeArray(["..","a"], false) = ["a"]`. -/
theorem C1_normalizeArray_spec :
    (∀ (parts : List Str) (allowAboveRoot : Bool),
        normalizeArray parts allowAboveRoot =
          normalizeArraySpec parts allowAboveRoot) ∧
    normalizeArray [['a'], ['.'], ['b'], ['.', '.']] false = [['a']] ∧
    normalizeArray [['.', '.'], ['a']] true = [['.', '.'], ['a']] ∧
    normalizeArray [['.', '.'], ['a']] false = [['a']] := by
  refine ⟨fun parts allow => normalizeArrayLoop_eq_foldl allow parts [], ?_, ?_, ?_⟩
  · decide
  · decide
  · decide

/-! ### The dir/basename/extension split shared by both drivers

Both drivers split the tail of a path with a regex of the shape
`^(dir lazy)((?:\.{1,2}|[^SEP]+?|)(\.[^.EXT]*|))(?:[SEP]*)$`.
With JS backtracking priority this denotes: strip the maximal trailing run
of separators, take the final separator-free segment as the basename, and
split the basename into name and extension where the extension group
matches either `"."` followed by extension characters, or nothing; the
alternation tries `".."`, then `"."`, then a lazy nonempty name, then the
empty name. -/

/-- Whether `r` is exactly the extension group `(\.[^.EXT]*|)`:
empty, or a dot followed by characters of the class `extOk`. -/
def isEMatch (extOk : Char → Bool) : Str → Bool
  | [] => true
  | c :: w => c == '.' && w.all extOk

/-- The lazy alternative `[^SEP]+?`: the shortest nonempty prefix whose
remainder is exactly matched by the extension group. -/
def lazySplit (extOk : Char → Bool) : Str → Option (Str × Str)
  | [] => none
  | c :: r =>
    if isEMatch extOk r then some ([c], r)
    else
      match lazySplit extOk r with
      | some (a, e) => some (c :: a, e)
      | none => none

/-- Splitting a basename into name part and extension, with the
backtracking priority of `(?:\.{1,2}|[^SEP]+?|)(\.[^.EXT]*|)`:
`".."` (greedy `{1,2}`) first, then `"."`, then the lazy name. -/
def extSplit (extOk : Char → Bool) (b : Str) : Str × Str :=
  if b.take 2 = ['.', '.'] ∧ isEMatch extOk (b.drop 2) then (b.take 2, b.drop 2)
  else if b.take 1 = ['.'] ∧ isEMatch extOk (b.drop 1) then (b.take 1, b.drop 1)
  else
    match lazySplit extOk b with
    | some ae => ae
    | none => ([], [])

/-- The (dir, basename, ext) split of a tail `t`: strip the maximal
trailing separator run, split the rest at its last separator, and apply
`extSplit` to the final segment. -/
def splitTailParts (sep : Char → Bool) (extOk : Char → Bool) (t : Str) :
    Str × Str × Str :=
  let u := (t.reverse.dropWhile sep).reverse
  let b := (u.reverse.takeWhile (fun c => !sep c)).reverse
  let d := (u.reverse.dropWhile (fun c => !sep c)).reverse
  (d, b, (extSplit extOk b).2)

theorem lazySplit_append (extOk : Char → Bool) :
    ∀ b a e, lazySplit extOk b = some (a, e) → a ++ e = b := by
  intro b
  induction b with
  | nil => intro a e h; simp [lazySplit] at h
  | cons c r ih =>
    intro a e h
    simp only [lazySplit] at h
    by_cases hm : isEMatch extOk r = true
    · simp [hm] at h
      simp [← h.1, ← h.2]
    · simp [hm] at h
      cases hr : lazySplit extOk r with
      | none => rw [hr] at h; simp at h
      | some ae =>
        rw [hr] at h
        obtain ⟨a', e'⟩ := ae
        simp at h
        have := ih a' e' hr
        rw [← h.1, ← h.2]
        simp [this]

theorem lazySplit_isSome (extOk : Char → Bool) :
    ∀ b, b ≠ [] → (lazySplit extOk b).isSome := by
  intro b
  induction b with
  | nil => intro h; exact absurd rfl h
  | cons c r ih =>
    intro _
    simp only [lazySplit]
    by_cases hm : isEMatch extOk r = true
    · simp [hm]
    · simp [hm]
      cases hr : r with
      | nil => rw [hr] at hm; simp [isEMatch] at hm
      | cons x xs =>
        have := ih (by simp [hr])
        rw [hr] at this
        cases hl : lazySplit extOk (x :: xs) with
        | none => rw [hl] at this; simp at this
        | some ae => simp

theorem extSplit_append (extOk : Char → Bool) (b : Str) :
    (extSplit extOk b).1 ++ (extSplit extOk b).2 = b := by
  unfold extSplit
  by_cases h1 : b.take 2 = ['.', '.'] ∧ isEMatch extOk (b.drop 2) = true
  · rw [if_pos h1]; exact List.take_append_drop 2 b
  · by_cases h2 : b.take 1 = ['.'] ∧ isEMatch extOk (b.drop 1) = true
    · rw [if_neg h1, if_pos h2]; exact List.take_append_drop 1 b
    · rw [if_neg h1, if_neg h2]
      cases hb : b with
      | nil => simp [lazySplit]
      | cons c r =>
        have hs := lazySplit_isSome extOk (c :: r) (by simp)
        cases hl : lazySplit extOk (c :: r) with
        | none => rw [hl] at hs; simp at hs
        | some ae =>
          obtain ⟨a, e⟩ := ae
          simp [lazySplit_append extOk (c :: r) a e hl]

/-- `base = name ++ ext` for the (base, ext) pair produced by `extSplit`,
with `name` computed as the source computes it: `base.slice(0, base.length
- ext.length)`. -/
theorem take_sub_append (a e : Str) :
    (a ++ e).take ((a ++ e).length - e.length) ++ e = a ++ e := by
  rw [List.length_append, Nat.add_sub_cancel, List.take_left]

theorem extSplit_name_append (extOk : Char → Bool) (b : Str) :
    b.take (b.length - (extSplit extOk b).2.length) ++ (extSplit extOk b).2 = b := by
  have h := extSplit_append extOk b
  have h2 := take_sub_append (extSplit extOk b).1 (extSplit extOk b).2
  rwa [h] at h2

/-! ### Basic lemmas about the split and join helpers -/

theorem splitChar_ne_nil (c : Char) (s : Str) : splitChar c s ≠ [] := by
  cases s with
  | nil => simp [splitChar]
  | cons x xs =>
    simp only [splitChar]
    by_cases h : x = c
    · simp [h]
    · simp only [h, if_false]
      cases splitChar c xs <;> simp

theorem splitChar_append (c : Char) :
    ∀ (x y : Str), splitChar c (x ++ c :: y) = splitChar c x ++ splitChar c y := by
  intro x
  induction x with
  | nil => intro y; simp [splitChar]
  | cons a t ih =>
    intro y
    by_cases h : a = c
    · simp [splitChar, h, ih]
    · simp only [List.cons_append, splitChar, h, if_false, List.append_eq]
      rw [ih y]
      cases ht : splitChar c t with
      | nil => exact absurd ht (splitChar_ne_nil c t)
      | cons h' t' => rfl

theorem splitChar_sepfree (c : Char) :
    ∀ (s : Str), ∀ x ∈ splitChar c s, ∀ ch ∈ x, ch ≠ c := by
  intro s
  induction s with
  | nil => intro x hx ch hch; simp [splitChar] at hx; simp [hx] at hch
  | cons a t ih =>
    intro x hx ch hch
    by_cases h : a = c
    · simp [splitChar, h] at hx
      rcases hx with hx | hx
      · simp [hx] at hch
      · exact ih x hx ch hch
    · simp only [splitChar, h, if_false] at hx
      cases ht : splitChar c t with
      | nil => exact absurd ht (splitChar_ne_nil c t)
      | cons h' t' =>
        rw [ht] at hx
        simp at hx
        rcases hx with hx | hx
        · rw [hx] at hch
          rcases List.mem_cons.mp hch with h1 | h1
          · rw [h1]; exact h
          · exact ih h' (by rw [ht]; exact List.mem_cons_self h' t') ch h1
        · exact ih x (by rw [ht]; exact List.mem_cons_of_mem h' hx) ch hch

theorem splitChar_of_no_sep (c : Char) (s : Str) (h : ∀ ch ∈ s, ch ≠ c) :
    splitChar c s = [s] := by
  induction s with
  | nil => rfl
  | cons a t ih =>
    have ha : a ≠ c := h a (List.mem_cons_self a t)
    simp only [splitChar, ha, if_false]
    rw [ih (fun ch hch => h ch (List.mem_cons_of_mem a hch))]

theorem splitChar_joinSep (c : Char) :
    ∀ (ys : List Str), ys ≠ [] → (∀ y ∈ ys, ∀ ch ∈ y, ch ≠ c) →
      splitChar c (joinSep c ys) = ys := by
  intro ys
  induction ys with
  | nil => intro h; exact absurd rfl h
  | cons y t ih =>
    intro _ hfree
    cases t with
    | nil => exact splitChar_of_no_sep c y (hfree y (List.mem_cons_self y []))
    | cons y' t' =>
      show splitChar c (y ++ c :: joinSep c (y' :: t')) = y :: y' :: t'
      rw [splitChar_append, splitChar_of_no_sep c y (hfree y (by simp)),
        ih (by simp) (fun z hz ch hch => hfree z (List.mem_cons_of_mem y hz) ch hch)]
      rfl

theorem joinSep_ne_nil (c : Char) (ys : List Str) (hne : ys ≠ [])
    (h : ∀ y ∈ ys, y ≠ []) : joinSep c ys ≠ [] := by
  cases ys with
  | nil => exact absurd rfl hne
  | cons y t =>
    cases t with
    | nil => exact h y (by simp)
    | cons y' t' =>
      show y ++ c :: joinSep c (y' :: t') ≠ []
      simp

theorem joinSep_head? (c : Char) (y : Str) (t : List Str) (hy : y ≠ []) :
    (joinSep c (y :: t)).head? = y.head? := by
  cases t with
  | nil => rfl
  | cons y' t' =>
    show (y ++ c :: joinSep c (y' :: t')).head? = y.head?
    cases y with
    | nil => exact absurd rfl hy
    | cons a b => rfl

theorem joinSep_getLast? (c : Char) :
    ∀ (ys : List Str), ys ≠ [] → (∀ y ∈ ys, y ≠ []) →
      ∃ y, ys.getLast? = some y ∧ (joinSep c ys).getLast? = y.getLast? := by
  intro ys
  induction ys with
  | nil => intro h; exact absurd rfl h
  | cons y t ih =>
    intro _ h
    cases t with
    | nil => exact ⟨y, rfl, rfl⟩
    | cons y' t' =>
      obtain ⟨z, hz1, hz2⟩ := ih (by simp) (fun w hw => h w (List.mem_cons_of_mem y hw))
      refine ⟨z, ?_, ?_⟩
      · rw [List.getLast?_cons_cons]; exact hz1
      · show (y ++ c :: joinSep c (y' :: t')).getLast? = z.getLast?
        rw [List.getLast?_append_of_ne_nil y (by simp), ← hz2]
        show (c :: joinSep c (y' :: t')).getLast? = (joinSep c (y' :: t')).getLast?
        have hnn : joinSep c (y' :: t') ≠ [] :=
          joinSep_ne_nil c (y' :: t') (by simp)
            (fun w hw => h w (List.mem_cons_of_mem y hw))
        cases hj : joinSep c (y' :: t') with
        | nil => exact absurd hj hnn
        | cons a b => rw [List.getLast?_cons_cons]

/-- Skipping an empty part leaves the normalizer loop unchanged. -/
theorem normalizeArrayLoop_cons_nil (al : Bool) (l : List Str) (res : List Str) :
    normalizeArrayLoop al ([] :: l) res = normalizeArrayLoop al l res := by
  simp [normalizeArrayLoop]

/-- The normalizer ignores empty parts wherever they occur. -/
theorem normalizeArrayLoop_filter (al : Bool) :
    ∀ (l : List Str) (res : List Str),
      normalizeArrayLoop al (l.filter (fun x => !x.isEmpty)) res =
        normalizeArrayLoop al l res := by
  intro l
  induction l with
  | nil => intro res; rfl
  | cons p t ih =>
    intro res
    by_cases hp : p = []
    · subst hp
      have hf : List.filter (fun x : Str => !x.isEmpty) ([] :: t) =
          List.filter (fun x : Str => !x.isEmpty) t := by
        simp [List.filter_cons]
      rw [hf, normalizeArrayLoop_cons_nil]
      exact ih res
    · have hne : (!p.isEmpty) = true := by
        simp [List.isEmpty_iff, hp]
      have hf : List.filter (fun x : Str => !x.isEmpty) (p :: t) =
          p :: List.filter (fun x : Str => !x.isEmpty) t := by
        simp [List.filter_cons, hne]
      rw [hf]
      simp only [normalizeArrayLoop]
      by_cases h1 : p = [] ∨ p = ['.']
      · simp [h1, ih]
      · by_cases h2 : p = ['.', '.']
        · by_cases h3 : res ≠ [] ∧ res.getLast? ≠ some ['.', '.']
          · simp [h1, h2, h3, ih]
          · cases al
            · simp [h1, h2, h3]; exact ih res
            · simp [h1, h2, h3]; exact ih (res ++ [['.', '.']])
        · simp [h1, h2, ih]

/-! ### The posix driver (win32.ts lines 441-705) -/

/-- Source: `trimArray(arr)` (both drivers): remove empty elements from
either end of the array (the index computation of the source is the
composition of dropping the leading empty elements and the trailing
ones). -/
def trimArray (arr : List Str) : List Str :=
  ((arr.dropWhile (fun x => x.isEmpty)).reverse.dropWhile
    (fun x => x.isEmpty)).reverse

/-- The extension character class `[^.\/]` of the posix split pattern. -/
def posixExtOk (c : Char) : Bool := !(c == '.' || c == '/')

/-- Source: `splitPathRe` applied to a filename and sliced to its four
captures `[root, dir, basename, ext]` (lines 514-519).  The pattern is
`^(\/?|)([\s\S]*?)((?:\.{1,2}|[^\/]+?|)(\.[^.\/]*|))(?:[\/]*)$`: an
optional leading slash is the root, the trailing `[\/]*` run is dropped,
the lazily-matched dir group extends up to and including the last slash,
and the remaining segment splits into basename and extension. -/
def posixSplitParts (s : Str) : Str × Str × Str × Str :=
  let root : Str := if s.head? = some '/' then ['/'] else []
  let t : Str := if s.head? = some '/' then s.tail else s
  let dbe := splitTailParts isSlash posixExtOk t
  (root, dbe.1, dbe.2.1, dbe.2.2)

/-- The four-element capture array returned by the posix `splitPath`. -/
def posixSplitPath (s : Str) : List Str :=
  [(posixSplitParts s).1, (posixSplitParts s).2.1,
   (posixSplitParts s).2.2.1, (posixSplitParts s).2.2.2]

/-- The `PathInfo` record (`src/pathinfo.ts`; all fields are strings). -/
structure PathInfo where
  root : Str
  dir : Str
  base : Str
  ext : Str
  name : Str
deriving Repr, DecidableEq

/-- Source: posix `parse(pathString)` (lines 684-705) on its string
argument: `dir = root + dirBody.slice(0, -1)`,
`name = base.slice(0, base.length - ext.length)`. -/
def posixParse (p : Str) : PathInfo :=
  let parts := posixSplitParts p
  { root := parts.1
    dir := parts.1 ++ parts.2.1.dropLast
    base := parts.2.2.1
    ext := parts.2.2.2
    name := parts.2.2.1.take (parts.2.2.1.length - parts.2.2.2.length) }

/-- Source: posix `format(pathObject)` (lines 662-681) on a `PathInfo`:
`dir = pathObject.dir ? pathObject.dir + separator : ""; return dir +
base` (the `root` string check cannot fire on a typed `PathInfo`). -/
def posixFormat (info : PathInfo) : Str :=
  (if info.dir.isEmpty then [] else info.dir ++ ['/']) ++ info.base

/-- Source: posix `isAbsolute(path)` (lines 571-573):
`path.charAt(0) === "/"`. -/
def posixIsAbsolute (p : Str) : Bool := p.head? == some '/'

/-- Source: posix `normalize(path)` (lines 553-568). -/
def posixNormalize (p : Str) : Str :=
  let isAbs := posixIsAbsolute p
  let trailingSlash := !p.isEmpty && p.getLast? == some '/'
  let path := joinSep '/' (normalizeArray (splitChar '/' p) (!isAbs))
  let path := if path.isEmpty && !isAbs then ['.'] else path
  let path := if !path.isEmpty && trailingSlash then path ++ ['/'] else path
  (if isAbs then ['/'] else []) ++ path

/-- Source: the loop of posix `resolve` (lines 527-539), processing the
arguments from last to first followed by `cwd`, while
`i >= -1 && !resolvedAbsolute` holds; empty entries are skipped, the
argument is prepended as `path + "/" + resolvedPath`, and
`resolvedAbsolute = path[0] === "/"`. -/
def posixResolveAcc : List Str → Str → Bool → Str × Bool
  | [], acc, abs => (acc, abs)
  | p :: rest, acc, abs =>
    if abs then (acc, abs)
    else if p.isEmpty then posixResolveAcc rest acc abs
    else posixResolveAcc rest (p ++ '/' :: acc) (p.head? == some '/')

/-- Source: posix `resolve(...paths)` (lines 523-549) for string
arguments, with the driver's `cwd` passed explicitly. -/
def posixResolve (cwd : Str) (paths : List Str) : Str :=
  let st := posixResolveAcc (paths.reverse ++ [cwd]) [] false
  let resolved :=
    joinSep '/' (normalizeArray (splitChar '/' st.1) (!st.2))
  let r := (if st.2 then ['/'] else []) ++ resolved
  if r.isEmpty then ['.'] else r

/-- Modelled from the spec's wording of `resolve` (section 4.3): scan the
arguments from last to first, then `cwd`, prepending each onto the
accumulator joined by `/` (the spec does not single out empty arguments),
stopping as soon as an argument starting with `/` is found. -/
def posixResolveSpecAcc : List Str → Str → Bool → Str × Bool
  | [], acc, abs => (acc, abs)
  | p :: rest, acc, abs =>
    if abs then (acc, abs)
    else posixResolveSpecAcc rest (p ++ '/' :: acc) (p.head? == some '/')

/-- Modelled from the spec's wording: resolve = scan, then normalize the
accumulated segments with `allowAboveRoot` = not absolute, then prefix
`/` when absolute, with `"."` for an empty result. -/
def posixResolveSpec (cwd : Str) (paths : List Str) : Str :=
  let st := posixResolveSpecAcc (paths.reverse ++ [cwd]) [] false
  let resolved :=
    joinSep '/' (normalizeArray (splitChar '/' st.1) (!st.2))
  let r := (if st.2 then ['/'] else []) ++ resolved
  if r.isEmpty then ['.'] else r

/-- The multiset of nonempty slash-separated segments of an accumulator;
the resolve loops preserve it. -/
def segQ (a : Str) : List Str :=
  (splitChar '/' a).filter (fun x => !x.isEmpty)

theorem normalizeArray_segQ (al : Bool) (a b : Str) (h : segQ a = segQ b) :
    normalizeArray (splitChar '/' a) al = normalizeArray (splitChar '/' b) al := by
  unfold normalizeArray
  rw [← normalizeArrayLoop_filter al (splitChar '/' a),
    ← normalizeArrayLoop_filter al (splitChar '/' b)]
  unfold segQ at h
  rw [h]

theorem segQ_cons_slash (a : Str) : segQ ('/' :: a) = segQ a := by
  unfold segQ
  simp [splitChar, List.filter_cons]

theorem segQ_prepend (p a : Str) :
    segQ (p ++ '/' :: a) = (splitChar '/' p).filter (fun x => !x.isEmpty) ++ segQ a := by
  unfold segQ
  rw [splitChar_append, List.filter_append]

theorem posixResolveAcc_spec :
    ∀ (l : List Str) (a b : Str) (abs : Bool), segQ a = segQ b →
      (posixResolveAcc l a abs).2 = (posixResolveSpecAcc l b abs).2 ∧
      segQ (posixResolveAcc l a abs).1 = segQ (posixResolveSpecAcc l b abs).1 := by
  intro l
  induction l with
  | nil => intro a b abs h; exact ⟨rfl, h⟩
  | cons p rest ih =>
    intro a b abs h
    by_cases habs : abs = true
    · subst habs
      simp only [posixResolveAcc, posixResolveSpecAcc, if_true]
      exact ⟨trivial, h⟩
    · have habs' : abs = false := by simpa using habs
      subst habs'
      by_cases hp : p.isEmpty = true
      · have hpnil : p = [] := List.isEmpty_iff.mp hp
        subst hpnil
        simp only [posixResolveAcc, posixResolveSpecAcc, if_neg (by simp : ¬False),
          List.isEmpty_nil, if_true]
        simp only [List.nil_append]
        have hh : (([] : Str).head? == some '/') = false := by rfl
        rw [hh]
        exact ih a ('/' :: b) false (by rw [segQ_cons_slash]; exact h)
      · simp only [posixResolveAcc, posixResolveSpecAcc, hp]
        simp only [Bool.false_eq_true, if_false]
        exact ih (p ++ '/' :: a) (p ++ '/' :: b) (p.head? == some '/')
          (by rw [segQ_prepend, segQ_prepend, h])

/-- Claim C6: the posix driver's `resolve` scans the arguments from last
to first (then falls back to `cwd`), prepending each onto an accumulator
joined by `/`, stopping as soon as an argument starting with `/` is found
or the list is exhausted; it normalizes the accumulated segments with
`allowAboveRoot` = not absolute and returns `("/" if absolute else "") +
normalized`, or `"."` if that is empty; in particular
`resolve("/a", "b") = "/a/b"` for every `cwd`. -/
theorem C6_posix_resolve :
    (∀ (cwd : Str) (paths : List Str),
        posixResolve cwd paths = posixResolveSpec cwd paths) ∧
    (∀ cwd : Str, posixResolve cwd [['/', 'a'], ['b']] = ['/', 'a', '/', 'b']) := by
  constructor
  · intro cwd paths
    simp only [posixResolve, posixResolveSpec]
    obtain ⟨h1, h2⟩ :=
      posixResolveAcc_spec (paths.reverse ++ [cwd]) [] [] false rfl
    rw [h1, normalizeArray_segQ _ _ _ h2]
  · intro cwd
    rfl

/-! ### Structural facts about the tail split -/

theorem dropWhile_head_false (p : Char → Bool) :
    ∀ (l : Str) (c : Char) (t : Str), l.dropWhile p = c :: t → p c = false := by
  intro l
  induction l with
  | nil => intro c t h; simp [List.dropWhile] at h
  | cons a l ih =>
    intro c t h
    by_cases ha : p a = true
    · rw [List.dropWhile_cons_of_pos ha] at h
      exact ih c t h
    · rw [List.dropWhile_cons_of_neg ha] at h
      cases h
      simpa using ha

theorem getLast?_mem {α : Type} : ∀ (l : List α) (a : α), l.getLast? = some a → a ∈ l := by
  intro l
  induction l with
  | nil => intro a h; simp at h
  | cons x t ih =>
    intro a h
    cases t with
    | nil => simp at h; simp [h]
    | cons y s =>
      rw [List.getLast?_cons_cons] at h
      exact List.mem_cons_of_mem x (ih a h)

/-- The decomposition computed by `splitTailParts`: the tail is
`dir ++ base ++ trailing-separators`, the base is separator-free and the
dir ends with a separator when nonempty. -/
theorem splitTail_decomp (sep extOk : Char → Bool) (t : Str) :
    t = (splitTailParts sep extOk t).1 ++ (splitTailParts sep extOk t).2.1 ++
        (t.reverse.takeWhile sep).reverse ∧
    (∀ c ∈ (t.reverse.takeWhile sep).reverse, sep c = true) ∧
    (∀ c ∈ (splitTailParts sep extOk t).2.1, sep c = false) ∧
    ((splitTailParts sep extOk t).1 = [] ∨
      ∃ c, (splitTailParts sep extOk t).1.getLast? = some c ∧ sep c = true) := by
  simp only [splitTailParts, List.reverse_reverse]
  have h1 : t.reverse = t.reverse.takeWhile sep ++ t.reverse.dropWhile sep :=
    (List.takeWhile_append_dropWhile (p := sep) (l := t.reverse)).symm
  have h2 : t.reverse.dropWhile sep =
      (t.reverse.dropWhile sep).takeWhile (fun c => !sep c) ++
      (t.reverse.dropWhile sep).dropWhile (fun c => !sep c) :=
    (List.takeWhile_append_dropWhile (p := fun c => !sep c)
      (l := t.reverse.dropWhile sep)).symm
  refine ⟨?_, ?_, ?_, ?_⟩
  · calc t = t.reverse.reverse := (t.reverse_reverse).symm
    _ = (t.reverse.takeWhile sep ++ t.reverse.dropWhile sep).reverse := by
        conv_lhs => rw [h1]
    _ = (t.reverse.dropWhile sep).reverse ++ (t.reverse.takeWhile sep).reverse := by
        rw [List.reverse_append]
    _ = ((t.reverse.dropWhile sep).dropWhile (fun c => !sep c)).reverse ++
        ((t.reverse.dropWhile sep).takeWhile (fun c => !sep c)).reverse ++
        (t.reverse.takeWhile sep).reverse := by
        conv_lhs => rw [h2]
        rw [List.reverse_append]
  · intro c hc
    rw [List.mem_reverse] at hc
    exact List.mem_takeWhile_imp hc
  · intro c hc
    rw [List.mem_reverse] at hc
    have := List.mem_takeWhile_imp hc
    simpa using this
  · rcases hd : ((t.reverse.dropWhile sep).dropWhile fun c => !sep c) with _ | ⟨c, r⟩
    · left; simp [hd]
    · right
      refine ⟨c, ?_, ?_⟩
      · rw [List.getLast?_reverse]
        rfl
      · have := dropWhile_head_false (fun c => !sep c) _ c r hd
        simpa using this

/-- When the tail does not end with a separator, the trailing run is
empty and the base is nonempty (for a nonempty tail). -/
theorem splitTail_no_trailing (sep extOk : Char → Bool) (t : Str)
    (h : ∀ c, t.getLast? = some c → sep c = false) :
    (t.reverse.takeWhile sep).reverse = [] ∧
    (t ≠ [] → (splitTailParts sep extOk t).2.1 ≠ []) := by
  constructor
  · cases ht : t.reverse with
    | nil => simp [ht]
    | cons c r =>
      have hc : t.getLast? = some c := by
        rw [← t.reverse_reverse, ht, List.getLast?_reverse]
        rfl
      have := h c hc
      simp [ht, List.takeWhile_cons, this]
  · intro hne
    simp only [splitTailParts, List.reverse_reverse]
    cases ht : t.reverse with
    | nil => exact absurd (by simpa using congrArg List.reverse ht) hne
    | cons c r =>
      have hc : t.getLast? = some c := by
        rw [← t.reverse_reverse, ht, List.getLast?_reverse]
        rfl
      have hsep := h c hc
      rw [List.dropWhile_cons_of_neg (by simp [hsep]),
        List.takeWhile_cons_of_pos (by simp [hsep])]
      simp

theorem normalizeArray_cons_nil (al : Bool) (l : List Str) :
    normalizeArray ([] :: l) al = normalizeArray l al :=
  normalizeArrayLoop_cons_nil al l []

/-- An extra slash after the root does not change posix normalization. -/
theorem posixNormalize_double_slash (b : Str) (hb : b ≠ [])
    (hfree : ∀ c ∈ b, c ≠ '/') :
    posixNormalize ('/' :: '/' :: b) = posixNormalize ('/' :: b) := by
  obtain ⟨x, xs, rfl⟩ : ∃ x xs, b = x :: xs := by
    cases b with
    | nil => exact absurd rfl hb
    | cons x xs => exact ⟨x, xs, rfl⟩
  have h3 : ('/' :: '/' :: x :: xs).getLast? = ('/' :: x :: xs).getLast? :=
    List.getLast?_cons_cons
  have h4 : splitChar '/' ('/' :: '/' :: x :: xs) =
      [] :: [] :: splitChar '/' (x :: xs) := by
    simp [splitChar]
  have h5 : splitChar '/' ('/' :: x :: xs) = [] :: splitChar '/' (x :: xs) := by
    simp [splitChar]
  simp only [posixNormalize, h3, h4, h5, normalizeArray_cons_nil]
  rfl

/-- Claim C2 (posix half): `normalize(format(parse(p))) = normalize(p)`
for every nonempty `p` that does not end in a separator. -/
theorem posix_roundTrip (p : Str) (hne : p ≠ []) (hlast : p.getLast? ≠ some '/') :
    posixNormalize (posixFormat (posixParse p)) = posixNormalize p := by
  have hlast' : ∀ c, p.getLast? = some c → isSlash c = false := by
    intro c hc
    by_contra hcon
    have : c = '/' := by
      simp [isSlash] at hcon
      exact hcon
    exact hlast (this ▸ hc)
  by_cases hh : p.head? = some '/'
  · obtain ⟨x, rest, rfl⟩ : ∃ x xs, p = x :: xs := by
      cases p with
      | nil => exact absurd rfl hne
      | cons x xs => exact ⟨x, xs, rfl⟩
    have hx : x = '/' := by simpa using hh
    subst hx
    -- the tail after the root
    have htne : rest ≠ [] := by
      intro hr
      subst hr
      exact hlast rfl
    have htlast : ∀ c, rest.getLast? = some c → isSlash c = false := by
      intro c hc
      apply hlast' c
      cases rest with
      | nil => exact absurd rfl htne
      | cons y ys => rw [List.getLast?_cons_cons]; exact hc
    obtain ⟨heq, _, hbfree, hd⟩ := splitTail_decomp isSlash posixExtOk rest
    obtain ⟨hss, hbne⟩ := splitTail_no_trailing isSlash posixExtOk rest htlast
    rw [hss, List.append_nil] at heq
    have hb := hbne htne
    have hparts : posixSplitParts ('/' :: rest) =
        (['/'], (splitTailParts isSlash posixExtOk rest).1,
          (splitTailParts isSlash posixExtOk rest).2.1,
          (splitTailParts isSlash posixExtOk rest).2.2) := by
      simp [posixSplitParts]
    rcases hd with hd | ⟨c, hcl, hcs⟩
    · -- no dir part: format produces a double slash after the root
      have hfmt : posixFormat (posixParse ('/' :: rest)) =
          '/' :: '/' :: (splitTailParts isSlash posixExtOk rest).2.1 := by
        simp [posixParse, posixFormat, hparts, hd]
      rw [hfmt]
      have hrest : rest = (splitTailParts isSlash posixExtOk rest).2.1 := by
        conv_lhs => rw [heq, hd]
        simp
      conv_rhs => rw [hrest]
      exact posixNormalize_double_slash _ (hrest ▸ hb)
        (fun c hc => by simpa [isSlash] using hbfree c hc)
    · -- dir part present and ending in the separator: format rebuilds p
      have hcslash : c = '/' := by simpa [isSlash] using hcs
      subst hcslash
      have hdne : (splitTailParts isSlash posixExtOk rest).1 ≠ [] := by
        intro h0
        rw [h0] at hcl
        simp at hcl
      have hdsplit : (splitTailParts isSlash posixExtOk rest).1 =
          (splitTailParts isSlash posixExtOk rest).1.dropLast ++ ['/'] := by
        conv_lhs => rw [← List.dropLast_append_getLast hdne]
        rw [List.getLast?_eq_getLast _ hdne] at hcl
        simp at hcl
        rw [hcl]
      have hfmt : posixFormat (posixParse ('/' :: rest)) = '/' :: rest := by
        simp only [posixParse, posixFormat, hparts]
        simp only [List.isEmpty_cons, List.cons_append, Bool.false_eq_true, if_false]
        congr 1
        conv_rhs => rw [heq]
        conv_rhs => rw [hdsplit]
        simp
      rw [hfmt]
  · -- no root
    have hparts : posixSplitParts p =
        ([], (splitTailParts isSlash posixExtOk p).1,
          (splitTailParts isSlash posixExtOk p).2.1,
          (splitTailParts isSlash posixExtOk p).2.2) := by
      simp [posixSplitParts, hh]
    obtain ⟨heq, _, hbfree, hd⟩ := splitTail_decomp isSlash posixExtOk p
    obtain ⟨hss, hbne⟩ := splitTail_no_trailing isSlash posixExtOk p hlast'
    rw [hss, List.append_nil] at heq
    rcases hd with hd | ⟨c, hcl, hcs⟩
    · have hfmt : posixFormat (posixParse p) = p := by
        simp [posixParse, posixFormat, hparts, hd]
        conv_rhs => rw [heq, hd]
        simp
      rw [hfmt]
    · have hcslash : c = '/' := by simpa [isSlash] using hcs
      subst hcslash
      have hdne : (splitTailParts isSlash posixExtOk p).1 ≠ [] := by
        intro h0
        rw [h0] at hcl
        simp at hcl
      have hdsplit : (splitTailParts isSlash posixExtOk p).1 =
          (splitTailParts isSlash posixExtOk p).1.dropLast ++ ['/'] := by
        conv_lhs => rw [← List.dropLast_append_getLast hdne]
        rw [List.getLast?_eq_getLast _ hdne] at hcl
        simp at hcl
        rw [hcl]
      have hddne : (splitTailParts isSlash posixExtOk p).1.dropLast ≠ [] := by
        intro h0
        rw [h0] at hdsplit
        simp at hdsplit
        rw [heq, hdsplit] at hh
        simp at hh
      have hfmt : posixFormat (posixParse p) = p := by
        simp only [posixParse, posixFormat, hparts]
        rw [List.nil_append]
        rw [if_neg (by simpa [List.isEmpty_iff] using hddne)]
        conv_rhs => rw [heq]
        conv_rhs => rw [hdsplit]
      rw [hfmt]

/-! ### Canonical shape of normalizer output (posix idempotence, C3) -/

/-- Output well-formedness of the segment normalizer on slash-free input:
every element is nonempty, not `"."`, slash-free, and the `".."` elements
form a prefix that is empty when `allowAboveRoot` is false. -/
def CanonOut (al : Bool) (l : List Str) : Prop :=
  (∀ y ∈ l, y ≠ [] ∧ y ≠ ['.'] ∧ ∀ c ∈ y, c ≠ '/') ∧
  ∃ k rest, l = List.replicate k ['.', '.'] ++ rest ∧ ['.', '.'] ∉ rest ∧
    (al = false → k = 0)

theorem normalizeArrayLoop_canon (al : Bool) :
    ∀ (xs : List Str) (res : List Str), CanonOut al res →
      (∀ y ∈ xs, ∀ c ∈ y, c ≠ '/') →
      CanonOut al (normalizeArrayLoop al xs res) := by
  intro xs
  induction xs with
  | nil => intro res hres _; exact hres
  | cons x xt ih =>
    intro res hres hxs
    have hxt : ∀ y ∈ xt, ∀ c ∈ y, c ≠ '/' :=
      fun y hy => hxs y (List.mem_cons_of_mem x hy)
    by_cases h1 : x = [] ∨ x = ['.']
    · rw [show normalizeArrayLoop al (x :: xt) res = normalizeArrayLoop al xt res by
        simp [normalizeArrayLoop, h1]]
      exact ih res hres hxt
    · by_cases h2 : x = ['.', '.']
      · by_cases h3 : res ≠ [] ∧ res.getLast? ≠ some ['.', '.']
        · rw [show normalizeArrayLoop al (x :: xt) res =
              normalizeArrayLoop al xt res.dropLast by
            simp [normalizeArrayLoop, h1, h2, h3]]
          apply ih _ _ hxt
          obtain ⟨helems, k, rest, hshape, hdd, hk⟩ := hres
          refine ⟨fun y hy => helems y (List.dropLast_subset res hy), ?_⟩
          have hrestne : rest ≠ [] := by
            intro h0
            subst h0
            rw [List.append_nil] at hshape
            rcases Nat.eq_zero_or_pos k with hk0 | hkpos
            · subst hk0; simp at hshape; exact h3.1 hshape
            · apply h3.2
              rw [hshape]
              cases k with
              | zero => omega
              | succ m => rw [List.replicate_succ' m, List.getLast?_concat]
          refine ⟨k, rest.dropLast, ?_, ?_, hk⟩
          · rw [hshape, List.dropLast_append_of_ne_nil _ hrestne]
          · intro hmem; exact hdd (List.dropLast_subset rest hmem)
        · rcases not_and_or.mp h3 with hres0 | hlastdd
          · -- the stack is empty
            have hres0 : res = [] := by simpa using hres0
            subst hres0
            by_cases h4 : al = true
            · rw [show normalizeArrayLoop al (x :: xt) [] =
                  normalizeArrayLoop al xt [['.', '.']] by
                simp [normalizeArrayLoop, h1, h2, h4]]
              apply ih _ _ hxt
              refine ⟨?_, 1, [], by simp [List.replicate], by simp, ?_⟩
              · intro y hy
                simp at hy
                subst hy
                refine ⟨by simp, by simp, by decide⟩
              · intro h5; rw [h5] at h4; simp at h4
            · have h4' : al = false := by simpa using h4
              rw [show normalizeArrayLoop al (x :: xt) [] =
                  normalizeArrayLoop al xt [] by
                simp [normalizeArrayLoop, h1, h2, h4']]
              exact ih _ hres hxt
          · -- the top of the stack is already ".."
            have hlastdd : res.getLast? = some ['.', '.'] := by
              simpa using hlastdd
            obtain ⟨helems, k, rest, hshape, hdd, hk⟩ := hres
            have hrest0 : rest = [] := by
              by_contra h0
              apply hdd
              apply getLast?_mem rest
              rw [hshape, List.getLast?_append_of_ne_nil _ h0] at hlastdd
              exact hlastdd
            subst hrest0
            rw [List.append_nil] at hshape
            by_cases h4 : al = true
            · rw [show normalizeArrayLoop al (x :: xt) res =
                  normalizeArrayLoop al xt (res ++ [['.', '.']]) by
                simp [normalizeArrayLoop, h1, h2, h3, h4]]
              apply ih _ _ hxt
              refine ⟨?_, k + 1, [], ?_, by simp, ?_⟩
              · intro y hy
                rcases List.mem_append.mp hy with hy | hy
                · exact helems y hy
                · simp at hy; subst hy
                  exact ⟨by simp, by simp, by decide⟩
              · rw [hshape, List.replicate_succ' k, List.append_nil]
              · intro h5; rw [h5] at h4; simp at h4
            · have h4' : al = false := by simpa using h4
              rw [show normalizeArrayLoop al (x :: xt) res =
                  normalizeArrayLoop al xt res by
                simp [normalizeArrayLoop, h1, h2, h3, h4']]
              exact ih _ ⟨helems, k, [], by simpa using hshape, by simp, hk⟩ hxt
      · rw [show normalizeArrayLoop al (x :: xt) res =
            normalizeArrayLoop al xt (res ++ [x]) by
          simp [normalizeArrayLoop, h1, h2]]
        apply ih _ _ hxt
        obtain ⟨helems, k, rest, hshape, hdd, hk⟩ := hres
        constructor
        · intro y hy
          rcases List.mem_append.mp hy with hy | hy
          · exact helems y hy
          · simp at hy
            rw [hy]
            exact ⟨fun h0 => h1 (Or.inl h0), fun h0 => h1 (Or.inr h0),
              hxs x (by simp)⟩
        · refine ⟨k, rest ++ [x], by rw [hshape, List.append_assoc], ?_, hk⟩
          intro hmem
          rcases List.mem_append.mp hmem with hm | hm
          · exact hdd hm
          · simp at hm; exact h2 hm.symm

theorem normalizeArrayLoop_push_all (al : Bool) :
    ∀ (l : List Str) (res : List Str),
      (∀ y ∈ l, y ≠ [] ∧ y ≠ ['.'] ∧ y ≠ ['.', '.']) →
      normalizeArrayLoop al l res = res ++ l := by
  intro l
  induction l with
  | nil => intro res _; simp [normalizeArrayLoop]
  | cons y t ih =>
    intro res h
    have hy := h y (by simp)
    rw [show normalizeArrayLoop al (y :: t) res = normalizeArrayLoop al t (res ++ [y]) by
      simp [normalizeArrayLoop, hy.1, hy.2.1, hy.2.2]]
    rw [ih _ (fun z hz => h z (List.mem_cons_of_mem y hz))]
    simp

theorem normalizeArrayLoop_dots (al : Bool) (hal : al = true) :
    ∀ (k j : Nat) (rest : List Str),
      (∀ y ∈ rest, y ≠ [] ∧ y ≠ ['.']) → ['.', '.'] ∉ rest →
      normalizeArrayLoop al (List.replicate k ['.', '.'] ++ rest)
        (List.replicate j ['.', '.']) =
      List.replicate (j + k) ['.', '.'] ++ rest := by
  intro k
  induction k with
  | zero =>
    intro j rest h hdd
    simp only [List.replicate_zero, List.nil_append, Nat.add_zero]
    exact normalizeArrayLoop_push_all al rest _
      (fun y hy => ⟨(h y hy).1, (h y hy).2, fun hc => hdd (hc ▸ hy)⟩)
  | succ m ih =>
    intro j rest h hdd
    subst hal
    rw [List.replicate_succ, List.cons_append]
    have hlast : (List.replicate j (['.', '.'] : Str)).getLast? = some ['.', '.'] ∨
        j = 0 := by
      cases j with
      | zero => right; rfl
      | succ i => left; rw [List.replicate_succ' i, List.getLast?_concat]
    have hstep : normalizeArrayLoop true
          (['.', '.'] :: (List.replicate m ['.', '.'] ++ rest))
          (List.replicate j ['.', '.']) =
        normalizeArrayLoop true (List.replicate m ['.', '.'] ++ rest)
          (List.replicate j ['.', '.'] ++ [['.', '.']]) := by
      rcases hlast with hl | hj
      · simp [normalizeArrayLoop, hl]
      · subst hj; simp [normalizeArrayLoop]
    rw [hstep, ← List.replicate_succ' j, ih (j + 1) rest h hdd]
    congr 2
    omega

theorem normalizeArray_canon_fixed (al : Bool) (l : List Str) (h : CanonOut al l) :
    normalizeArray l al = l := by
  obtain ⟨helems, k, rest, hshape, hdd, hk⟩ := h
  have hrest : ∀ y ∈ rest, y ≠ [] ∧ y ≠ ['.'] := by
    intro y hy
    have := helems y (by rw [hshape]; exact List.mem_append_right _ hy)
    exact ⟨this.1, this.2.1⟩
  by_cases hal : al = true
  · rw [hshape]
    have := normalizeArrayLoop_dots al hal k 0 rest hrest hdd
    simpa using this
  · have hk0 : k = 0 := hk (by simpa using hal)
    subst hk0
    simp only [List.replicate_zero, List.nil_append] at hshape
    subst hshape
    have := normalizeArrayLoop_push_all al l []
      (fun y hy => ⟨(helems y hy).1, (helems y hy).2.1, fun hc => hdd (hc ▸ hy)⟩)
    simpa using this

theorem head?_append_left {α : Type} (l₁ l₂ : List α) (h : l₁ ≠ []) :
    (l₁ ++ l₂).head? = l₁.head? := by
  cases l₁ with
  | nil => exact absurd rfl h
  | cons a t => rfl

/-- A string assembled the way `posixNormalize` assembles its nonempty
results is a fixed point of `posixNormalize`. -/
theorem posixNormalize_build (abs tr : Bool) (y0 : Str) (yt : List Str)
    (helems : ∀ y ∈ y0 :: yt, y ≠ [] ∧ y ≠ ['.'] ∧ ∀ c ∈ y, c ≠ '/')
    (hfix : normalizeArray (y0 :: yt) (!abs) = y0 :: yt) :
    posixNormalize ((if abs then ['/'] else []) ++
      (if tr then joinSep '/' (y0 :: yt) ++ ['/'] else joinSep '/' (y0 :: yt))) =
    (if abs then ['/'] else []) ++
      (if tr then joinSep '/' (y0 :: yt) ++ ['/'] else joinSep '/' (y0 :: yt)) := by
  have hnonnil : ∀ y ∈ y0 :: yt, y ≠ [] := fun y hy => (helems y hy).1
  have hsfree : ∀ y ∈ y0 :: yt, ∀ c ∈ y, c ≠ '/' := fun y hy => (helems y hy).2.2
  have hjne : joinSep '/' (y0 :: yt) ≠ [] := joinSep_ne_nil '/' _ (by simp) hnonnil
  have hsplitj : splitChar '/' (joinSep '/' (y0 :: yt)) = y0 :: yt :=
    splitChar_joinSep '/' _ (by simp) hsfree
  obtain ⟨c0, y0t, hy0⟩ : ∃ c0 y0t, y0 = c0 :: y0t := by
    cases hy : y0 with
    | nil => exact absurd hy (hnonnil y0 (by simp))
    | cons c w => exact ⟨c, w, rfl⟩
  have hc0 : c0 ≠ '/' := hsfree y0 (by simp) c0 (by rw [hy0]; simp)
  -- the body of the assembled string and its split
  have hbodyne : (if tr then joinSep '/' (y0 :: yt) ++ ['/']
      else joinSep '/' (y0 :: yt)) ≠ [] := by
    cases tr <;> simp [hjne]
  have hsplitbody : splitChar '/' (if tr then joinSep '/' (y0 :: yt) ++ ['/']
      else joinSep '/' (y0 :: yt)) = (y0 :: yt) ++ (if tr then [[]] else []) := by
    cases tr
    · simpa using hsplitj
    · show splitChar '/' (joinSep '/' (y0 :: yt) ++ '/' :: []) = _
      rw [splitChar_append, hsplitj]
      rfl
  have hheadbody : (if tr then joinSep '/' (y0 :: yt) ++ ['/']
      else joinSep '/' (y0 :: yt)).head? = some c0 := by
    have hj : (joinSep '/' (y0 :: yt)).head? = some c0 := by
      rw [joinSep_head? '/' y0 yt (hnonnil y0 (by simp)), hy0]
      rfl
    cases tr
    · simpa using hj
    · show (joinSep '/' (y0 :: yt) ++ ['/']).head? = some c0
      rw [head?_append_left _ _ hjne]
      exact hj
  have hlastbody : (if tr then joinSep '/' (y0 :: yt) ++ ['/']
      else joinSep '/' (y0 :: yt)).getLast? = some '/' ↔ tr = true := by
    cases tr
    · simp only [if_false, Bool.false_eq_true, iff_false]
      obtain ⟨z, hz1, hz2⟩ := joinSep_getLast? '/' (y0 :: yt) (by simp) hnonnil
      rw [hz2]
      have hzmem : z ∈ y0 :: yt := getLast?_mem _ _ hz1
      have hzne : z ≠ [] := hnonnil z hzmem
      rw [List.getLast?_eq_getLast z hzne]
      intro hcon
      have : z.getLast hzne = '/' := by simpa using hcon
      exact hsfree z hzmem _ (List.getLast_mem hzne) this
    · have heq : (if (true : Bool) = true then joinSep '/' (y0 :: yt) ++ ['/']
          else joinSep '/' (y0 :: yt)) = joinSep '/' (y0 :: yt) ++ ['/'] := rfl
      rw [heq, List.getLast?_concat]
      simp
  -- the absolute flag of the assembled string
  have habs : posixIsAbsolute ((if abs then ['/'] else []) ++
      (if tr then joinSep '/' (y0 :: yt) ++ ['/'] else joinSep '/' (y0 :: yt))) = abs := by
    cases abs
    · simp only [if_false, Bool.false_eq_true, List.nil_append]
      simp [posixIsAbsolute, hheadbody, hc0]
    · simp [posixIsAbsolute]
  -- the trailing flag of the assembled string
  have hne : (if abs then ['/'] else []) ++
      (if tr then joinSep '/' (y0 :: yt) ++ ['/'] else joinSep '/' (y0 :: yt)) ≠ [] := by
    cases abs <;> simp [hbodyne]
  have hlastn : ((if abs then ['/'] else []) ++
      (if tr then joinSep '/' (y0 :: yt) ++ ['/'] else joinSep '/' (y0 :: yt))).getLast? =
      (if tr then joinSep '/' (y0 :: yt) ++ ['/'] else joinSep '/' (y0 :: yt)).getLast? := by
    cases abs
    · simp
    · simp only [if_true]
      exact List.getLast?_append_of_ne_nil _ hbodyne
  have htr : (!((if abs then ['/'] else []) ++
      (if tr then joinSep '/' (y0 :: yt) ++ ['/'] else joinSep '/' (y0 :: yt))).isEmpty &&
      ((if abs then ['/'] else []) ++
      (if tr then joinSep '/' (y0 :: yt) ++ ['/'] else joinSep '/' (y0 :: yt))).getLast? ==
        some '/') = tr := by
    rw [hlastn]
    have h1 : (!((if abs then ['/'] else []) ++
        (if tr then joinSep '/' (y0 :: yt) ++ ['/'] else joinSep '/' (y0 :: yt))).isEmpty) =
        true := by
      simpa [List.isEmpty_iff] using hne
    rw [h1, Bool.true_and]
    cases tr
    · have hnot : ¬(if (false : Bool) = true then joinSep '/' (y0 :: yt) ++ ['/']
          else joinSep '/' (y0 :: yt)).getLast? = some '/' := by
        rw [hlastbody]; simp
      simpa using hnot
    · have hyes := hlastbody.mpr rfl
      simp [hyes]
  -- the split of the assembled string
  have hsplitn : splitChar '/' ((if abs then ['/'] else []) ++
      (if tr then joinSep '/' (y0 :: yt) ++ ['/'] else joinSep '/' (y0 :: yt))) =
      (if abs then [([] : Str)] else []) ++ ((y0 :: yt) ++ (if tr then [[]] else [])) := by
    cases abs
    · simpa using hsplitbody
    · simp only [if_true, List.singleton_append]
      show splitChar '/' ('/' :: _) = _
      rw [show splitChar '/' ('/' :: (if tr then joinSep '/' (y0 :: yt) ++ ['/']
          else joinSep '/' (y0 :: yt))) = [] :: splitChar '/' (if tr then
          joinSep '/' (y0 :: yt) ++ ['/'] else joinSep '/' (y0 :: yt)) by
        simp [splitChar]]
      rw [hsplitbody]
  -- normalizing the split segments gives back the segments
  have hnorm : normalizeArray (splitChar '/' ((if abs then ['/'] else []) ++
      (if tr then joinSep '/' (y0 :: yt) ++ ['/'] else joinSep '/' (y0 :: yt)))) (!abs) =
      y0 :: yt := by
    rw [hsplitn]
    unfold normalizeArray
    rw [← normalizeArrayLoop_filter]
    have hfilter : ((if abs then [([] : Str)] else []) ++
        ((y0 :: yt) ++ (if tr then [[]] else []))).filter (fun x => !x.isEmpty) =
        y0 :: yt := by
      rw [List.filter_append, List.filter_append]
      have hys : (y0 :: yt).filter (fun x => !x.isEmpty) = y0 :: yt :=
        List.filter_eq_self.mpr (fun y hy => by
          simpa [List.isEmpty_iff] using hnonnil y hy)
      have hpre : ((if abs then [([] : Str)] else []) : List Str).filter
          (fun x => !x.isEmpty) = [] := by cases abs <;> simp
      have hpost : ((if tr then [([] : Str)] else []) : List Str).filter
          (fun x => !x.isEmpty) = [] := by cases tr <;> simp
      rw [hys, hpre, hpost, List.nil_append, List.append_nil]
    rw [hfilter]
    exact hfix
  -- assemble
  have hjem : (joinSep '/' (y0 :: yt)).isEmpty = false := by
    simpa [List.isEmpty_iff] using hjne
  simp only [posixNormalize, habs, htr, hnorm, hjem]
  simp [hjem]

/-- Claim C3 (posix half): `normalize` is idempotent on the posix driver. -/
theorem posixNormalize_idem (p : Str) :
    posixNormalize (posixNormalize p) = posixNormalize p := by
  have hsf := splitChar_sepfree '/' p
  have hcanon : CanonOut (!posixIsAbsolute p)
      (normalizeArray (splitChar '/' p) (!posixIsAbsolute p)) := by
    apply normalizeArrayLoop_canon
    · exact ⟨by simp, 0, [], by simp, by simp, fun _ => rfl⟩
    · exact hsf
  rcases hys0 : normalizeArray (splitChar '/' p) (!posixIsAbsolute p) with _ | ⟨y0, yt⟩
  · -- no segments survive: the normalized string is "/", "." or "./"
    have hn : posixNormalize p = ['/'] ∨ posixNormalize p = ['.'] ∨
        posixNormalize p = ['.', '/'] := by
      simp only [posixNormalize, hys0]
      cases posixIsAbsolute p <;>
        cases (!p.isEmpty && p.getLast? == some '/') <;> simp [joinSep]
    rcases hn with hn | hn | hn <;> rw [hn] <;> decide
  · rw [hys0] at hcanon
    have hfix : normalizeArray (y0 :: yt) (!posixIsAbsolute p) = y0 :: yt :=
      normalizeArray_canon_fixed _ _ hcanon
    have hjne : joinSep '/' (y0 :: yt) ≠ [] :=
      joinSep_ne_nil '/' _ (by simp) (fun y hy => (hcanon.1 y hy).1)
    have hjem : (joinSep '/' (y0 :: yt)).isEmpty = false := by
      simpa [List.isEmpty_iff] using hjne
    have hn : posixNormalize p =
        (if posixIsAbsolute p then ['/'] else []) ++
        (if (!p.isEmpty && p.getLast? == some '/') then joinSep '/' (y0 :: yt) ++ ['/']
         else joinSep '/' (y0 :: yt)) := by
      simp only [posixNormalize, hys0, hjem]
      simp [hjem]
    rw [hn]
    exact posixNormalize_build (posixIsAbsolute p) _ y0 yt hcanon.1 hfix

/-! ### The win32 driver (win32.ts lines 23-418) -/

/-- The device group of `splitDeviceRe`:
`([a-zA-Z]:|[\\\/]{2}[^\\\/]+[\\\/]+[^\\\/]+)?`.  The first alternative is
a drive letter and colon; the second is a UNC prefix: two separators, a
maximal nonempty host run, a maximal nonempty separator run, and a maximal
nonempty share run (the quantifiers are greedy, and no backtracking can
rescue a failed component because shortening a maximal run leaves the next
component's character class unsatisfied).  Returns the captured device and
the remaining input. -/
def matchDevice : Str → Option (Str × Str)
  | c₁ :: c₂ :: r =>
    if isLetter c₁ && c₂ == ':' then some ([c₁, c₂], r)
    else if isSep c₁ && isSep c₂ then
      let host := r.takeWhile (fun c => !isSep c)
      let r₁ := r.dropWhile (fun c => !isSep c)
      let seps := r₁.takeWhile isSep
      let r₂ := r₁.dropWhile isSep
      let share := r₂.takeWhile (fun c => !isSep c)
      let r₃ := r₂.dropWhile (fun c => !isSep c)
      if host ≠ [] ∧ seps ≠ [] ∧ share ≠ [] then
        some (c₁ :: c₂ :: (host ++ seps ++ share), r₃)
      else none
    else none
  | _ => none

/-- `splitDeviceRe` applied to a string:
`^(device)?([\\\/])?([\s\S]*?)$` yields the optional device, an optional
single following separator, and the rest.  Returns `(G1, G2, G3)`. -/
def splitG2 (g1 rest : Str) : Str × Str × Str :=
  match rest with
  | c :: r => if isSep c then (g1, [c], r) else (g1, [], c :: r)
  | [] => (g1, [], [])

def splitDevice (s : Str) : Str × Str × Str :=
  match matchDevice s with
  | some dr => splitG2 dr.1 dr.2
  | none => splitG2 [] s

/-- Source: the record computed by `statPath(path)` (lines 123-133). -/
structure PathStat where
  device : Str
  tail : Str
  isUnc : Bool
  isAbsolute : Bool
deriving Repr, DecidableEq

/-- Source: `statPath(path)`: `device = result[1] || ""`,
`isUnc = !!device && device[1] !== ":"`,
`isAbsolute = isUnc || !!result[2]`, `tail = result[3]`. -/
def statPath (p : Str) : PathStat :=
  let g := splitDevice p
  let unc := !g.1.isEmpty && !(g.1.get? 1 == some ':')
  { device := g.1, tail := g.2.2, isUnc := unc,
    isAbsolute := unc || !g.2.1.isEmpty }

/-- The global separator-collapsing replace
`.replace(/[\\\/]+/g, "\\")`: every maximal run of separators becomes one
backslash (`inRun` records whether the previous character was part of the
current run). -/
def collapseSepsAux : Bool → Str → Str
  | _, [] => []
  | inRun, c :: r =>
    if isSep c then
      if inRun then collapseSepsAux true r
      else '\\' :: collapseSepsAux true r
    else c :: collapseSepsAux false r

def collapseSeps (s : Str) : Str :=
  collapseSepsAux false s

/-- Source: `normalizeUNCRoot(device)` (lines 135-137): strip the leading
separator run, collapse inner runs to single backslashes, prefix `\\`. -/
def normalizeUNCRoot (device : Str) : Str :=
  '\\' :: '\\' :: collapseSeps (device.dropWhile isSep)

/-- The extension character class `[^.\/\\]` of `splitTailRe`. -/
def win32ExtOk (c : Char) : Bool := !(c == '.' || c == '/' || c == '\\')

/-- Source: `splitPath(filename)` (lines 103-114): separate device+slash
from the tail via `splitDeviceRe`, then split the tail into
(dir, basename, ext) via `splitTailRe`. Returns
`[device, dir, basename, ext]` as a tuple. -/
def win32SplitParts (s : Str) : Str × Str × Str × Str :=
  let g := splitDevice s
  let dbe := splitTailParts isSep win32ExtOk g.2.2
  (g.1 ++ g.2.1, dbe.1, dbe.2.1, dbe.2.2)

/-- The four-element capture array returned by the win32 `splitPath`. -/
def win32SplitPath (s : Str) : List Str :=
  [(win32SplitParts s).1, (win32SplitParts s).2.1,
   (win32SplitParts s).2.2.1, (win32SplitParts s).2.2.2]

/-- Source: win32 `parse(pathString)` (lines 401-418) on its string
argument. -/
def win32Parse (p : Str) : PathInfo :=
  let parts := win32SplitParts p
  { root := parts.1
    dir := parts.1 ++ parts.2.1.dropLast
    base := parts.2.2.1
    ext := parts.2.2.2
    name := parts.2.2.1.take (parts.2.2.1.length - parts.2.2.2.length) }

/-- Source: win32 `format(pathObject)` (lines 373-398) on a `PathInfo`:
return `base` when `dir` is falsy, `dir + base` when `dir` already ends
in the separator `\`, else `dir + "\" + base`. -/
def win32Format (info : PathInfo) : Str :=
  if info.dir.isEmpty then info.base
  else if info.dir.getLast? == some '\\' then info.dir ++ info.base
  else info.dir ++ '\\' :: info.base

/-- The test `/[\\\/]$/.test(s)`. -/
def endsWithSep (s : Str) : Bool :=
  match s.getLast? with
  | some c => isSep c
  | none => false

/-- Source: win32 `normalize(path)` (lines 212-237). -/
def win32Normalize (p : Str) : Str :=
  let st := statPath p
  let trailingSlash := endsWithSep st.tail
  let tail := joinSep '\\' (normalizeArray (splitRuns isSep st.tail) (!st.isAbsolute))
  let tail := if tail.isEmpty && !st.isAbsolute then ['.'] else tail
  let tail := if !tail.isEmpty && trailingSlash then tail ++ ['\\'] else tail
  let device := if st.isUnc then normalizeUNCRoot st.device else st.device
  device ++ (if st.isAbsolute then ['\\'] else []) ++ tail

/-- Source: win32 `isAbsolute(path)` (lines 239-241). -/
def win32IsAbsolute (p : Str) : Bool := (statPath p).isAbsolute

/-- The mutable state of the win32 `resolve` loop: `resolvedDevice`,
`resolvedTail`, `resolvedAbsolute` and the outer `isUnc` variable (the
latter is overwritten by every processed path, even one skipped for a
device conflict). -/
structure W32St where
  device : Str
  tail : Str
  absolute : Bool
  unc : Bool
deriving Repr, DecidableEq

/-- Source: the body of one win32 `resolve` iteration (lines 172-189) on a
nonempty path: `isUnc = result.isUnc` is assigned before the
device-conflict `continue`; then the device is adopted if none was
resolved, and the tail is prepended while no absolute root is resolved. -/
def w32Step (st : W32St) (path : Str) : W32St :=
  let r := statPath path
  let st1 : W32St := { st with unc := r.isUnc }
  if r.device ≠ [] ∧ st1.device ≠ [] ∧ lowerStr r.device ≠ lowerStr st1.device then st1
  else
    let dev := if st1.device.isEmpty then r.device else st1.device
    if st1.absolute then { st1 with device := dev }
    else { device := dev, tail := r.tail ++ '\\' :: st1.tail,
           absolute := r.isAbsolute, unc := r.isUnc }

/-- The driver's `env` record, as an association list; `env[k]` is the
first binding of `k`. -/
def lookupEnv (env : List (Str × Str)) (k : Str) : Option Str :=
  match env.find? (fun kv => kv.1 == k) with
  | some kv => some kv.2
  | none => none

/-- Source: the `i = -1` case of the win32 `resolve` loop (lines 150-163):
use `cwd` when no device was resolved, else the drive-local cwd
`env["=" + resolvedDevice]`, falling back to `resolvedDevice + "\"` when
that is absent, empty, or does not start (case-insensitively) with the
resolved drive followed by a backslash. -/
def w32CwdPath (env : List (Str × Str)) (cwd : Str) (st : W32St) : Str :=
  if st.device.isEmpty then cwd
  else
    match lookupEnv env ('=' :: st.device) with
    | some p =>
        if p ≠ [] ∧ lowerStr (p.take 3) = lowerStr st.device ++ ['\\'] then p
        else st.device ++ ['\\']
    | none => st.device ++ ['\\']

/-- Source: the win32 `resolve` loop (lines 146-194), iterating from the
last argument to the first and then the `i = -1` working-directory case;
empty entries are skipped and the loop breaks once a device and an
absolute root have been resolved. -/
def w32Go (env : List (Str × Str)) (cwd : Str) : List Str → W32St → W32St
  | [], st =>
    let path := w32CwdPath env cwd st
    if path.isEmpty then st else w32Step st path
  | p :: rest, st =>
    if p.isEmpty then w32Go env cwd rest st
    else
      let st1 := w32Step st p
      if st1.device ≠ [] ∧ st1.absolute then st1 else w32Go env cwd rest st1

/-- Source: win32 `resolve(...paths)` (lines 140-210) for string
arguments, with the driver's `cwd` and `env` passed explicitly. -/
def win32Resolve (env : List (Str × Str)) (cwd : Str) (paths : List Str) : Str :=
  let st := w32Go env cwd paths.reverse
    { device := [], tail := [], absolute := false, unc := false }
  let device := if st.unc then normalizeUNCRoot st.device else st.device
  let tail := joinSep '\\' (normalizeArray (splitRuns isSep st.tail) (!st.absolute))
  let r := device ++ (if st.absolute then ['\\'] else []) ++ tail
  if r.isEmpty then ['.'] else r

/-- Source: the first-mismatch scan of `relative` (lines 292-300):
`samePartsLength` is the position of the first differing segment, or the
length of the shorter side when no segment differs. -/
def firstMismatch : List Str → List Str → Option Nat
  | x :: xs, y :: ys =>
    if x ≠ y then some 0 else (firstMismatch xs ys).map (· + 1)
  | _, _ => none

def samePartsLength (xs ys : List Str) : Nat :=
  (firstMismatch xs ys).getD (min xs.length ys.length)

/-- Source: win32 `relative(from, to)` (lines 279-314): resolve both,
lower-case and split both on `\`, trim empty ends, find the
first-mismatch length, and return the resolved `to` when no segments are
shared, else `".."` for every remaining `from` segment followed by the
remaining original-case `to` segments. -/
def win32Relative (env : List (Str × Str)) (cwd : Str) (fromP toP : Str) : Str :=
  let f := win32Resolve env cwd [fromP]
  let t := win32Resolve env cwd [toP]
  let toParts := trimArray (splitChar '\\' t)
  let lowerFromParts := trimArray (splitChar '\\' (lowerStr f))
  let lowerToParts := trimArray (splitChar '\\' (lowerStr t))
  let n := samePartsLength lowerFromParts lowerToParts
  if n = 0 then t
  else joinSep '\\'
    (List.replicate (lowerFromParts.length - n) ['.', '.'] ++ toParts.drop n)

/-- Source: win32 `join(...paths)` (lines 243-271) for string arguments:
filter out empty (falsy) strings, join with `\`, and unless the first
kept argument starts with two separators followed by a non-separator,
collapse a leading run of two or more separators (the replace
`^[\\\/]{2,}` → `\`), then normalize. -/
def win32Join (paths : List Str) : Str :=
  let kept := paths.filter (fun p => !p.isEmpty)
  let joined := joinSep '\\' kept
  let joined :=
    if (match kept.head? with
        | some (a :: b :: c :: _) => isSep a && isSep b && !isSep c
        | _ => false) then joined
    else if 2 ≤ (joined.takeWhile isSep).length then '\\' :: joined.dropWhile isSep
    else joined
  win32Normalize joined

/-- Claim C3 counterexample: the claim "normalize is idempotent on each
driver for every p" fails on the Windows driver at `p = ".\\c:"`:
`normalize(".\\c:") = "c:"` but `normalize("c:") = "c:."`. -/
theorem C3_counterexample :
    win32Normalize (win32Normalize ['.', '\\', 'c', ':']) ≠
      win32Normalize ['.', '\\', 'c', ':'] := by decide

/-- Claim C3 (amended): `normalize` is idempotent on the POSIX driver for
every string `p`; on the Windows driver idempotence fails, e.g. at
`".\\c:"` whose normalization `"c:"` re-normalizes to `"c:."`. -/
theorem C3_normalize_idem :
    (∀ p : Str, posixNormalize (posixNormalize p) = posixNormalize p) ∧
    win32Normalize (win32Normalize ['.', '\\', 'c', ':']) ≠
      win32Normalize ['.', '\\', 'c', ':'] :=
  ⟨posixNormalize_idem, by decide⟩

/-- Whether a string starts with exactly two separators followed by a
non-separator (the spec's wording of the intended-UNC test in `join`). -/
def twoSepsThenNonSep (f : Str) : Bool :=
  match f.take 3 with
  | [a, b, c] => isSep a && isSep b && !isSep c
  | _ => false

/-- Modelled from the spec's wording of win32 `join` (section 4.4):
filter out empty strings, join with `\`, collapse a leading run of two or
more separators down to one unless the first non-empty argument starts
with exactly two separators followed by a non-separator, then
normalize. -/
def win32JoinSpec (paths : List Str) : Str :=
  let kept := paths.filter (fun p => !p.isEmpty)
  let joined := joinSep '\\' kept
  let joined :=
    if (match kept.head? with
        | some f => twoSepsThenNonSep f
        | none => false) then joined
    else if 2 ≤ (joined.takeWhile isSep).length then '\\' :: joined.dropWhile isSep
    else joined
  win32Normalize joined

/-- Claim C5 counterexample: `join("//server", "share")` is not the
claimed `"\\\\server\\share"`; the driver produces a trailing backslash
(as the source's own comment documents). -/
theorem C5_counterexample :
    win32Join [['/', '/', 's', 'e', 'r', 'v', 'e', 'r'], ['s', 'h', 'a', 'r', 'e']] ≠
      ['\\', '\\', 's', 'e', 'r', 'v', 'e', 'r', '\\', 's', 'h', 'a', 'r', 'e'] := by
  decide

/-- Claim C5 (amended): win32 `join` filters out empty strings, joins with
the backslash separator, collapses a leading run of two or more
separators down to one unless the first non-empty argument starts with
exactly two separators followed by a non-separator, then normalizes; and
`join("//server", "share") = "\\\\server\\share\\"` (with a trailing
backslash). -/
theorem C5_win32_join :
    (∀ paths, win32Join paths = win32JoinSpec paths) ∧
    win32Join [['/', '/', 's', 'e', 'r', 'v', 'e', 'r'], ['s', 'h', 'a', 'r', 'e']] =
      ['\\', '\\', 's', 'e', 'r', 'v', 'e', 'r', '\\', 's', 'h', 'a', 'r', 'e', '\\'] := by
  constructor
  · intro paths
    simp only [win32Join, win32JoinSpec]
    rcases hk : (paths.filter (fun p => !p.isEmpty)).head? with _ | f
    · rw [hk]
    · rw [hk]
      rcases f with _ | ⟨a, f⟩
      · rfl
      · rcases f with _ | ⟨b, f⟩
        · rfl
        · rcases f with _ | ⟨c, f⟩
          · rfl
          · rfl
  · decide

/-- The length of the longest common prefix of two segment lists (the
spec's common-prefix length). -/
def commonPrefixLen : List Str → List Str → Nat
  | x :: xs, y :: ys => if x = y then commonPrefixLen xs ys + 1 else 0
  | _, _ => 0

theorem samePartsLength_eq_commonPrefixLen :
    ∀ xs ys : List Str, samePartsLength xs ys = commonPrefixLen xs ys := by
  intro xs
  induction xs with
  | nil =>
    intro ys
    cases ys <;> rfl
  | cons x xs ih =>
    intro ys
    cases ys with
    | nil => rfl
    | cons y ys =>
      by_cases hxy : x = y
      · subst hxy
        have hsp := ih ys
        have hfm1 : firstMismatch (x :: xs) (x :: ys) =
            (firstMismatch xs ys).map (· + 1) := by
          simp [firstMismatch]
        have hcp : commonPrefixLen (x :: xs) (x :: ys) = commonPrefixLen xs ys + 1 := by
          simp [commonPrefixLen]
        rw [hcp]
        unfold samePartsLength at hsp ⊢
        rw [hfm1]
        cases hfm : firstMismatch xs ys with
        | some j =>
          rw [hfm] at hsp
          simp only [Option.map_some', Option.getD_some] at hsp ⊢
          omega
        | none =>
          rw [hfm] at hsp
          simp only [Option.map_none', Option.getD_none, List.length_cons] at hsp ⊢
          omega
      · simp [samePartsLength, firstMismatch, hxy, commonPrefixLen]

theorem lowerChar_backslash (x : Char) : lowerChar x = '\\' ↔ x = '\\' := by
  constructor
  · intro h
    unfold lowerChar at h
    by_cases hr : 'A' ≤ x ∧ x ≤ 'Z'
    · exfalso
      rw [if_pos (by simp [hr.1, hr.2])] at h
      have hA : 65 ≤ x.toNat := by
        have := hr.1
        rw [Char.le_def] at this
        exact this
      have hZ : x.toNat ≤ 90 := by
        have := hr.2
        rw [Char.le_def] at this
        exact this
      have hv : (x.toNat + 32).isValidChar := Or.inl (by omega)
      have hth := congrArg Char.toNat h
      rw [Char.ofNat, dif_pos hv] at hth
      have haux : (Char.ofNatAux (x.toNat + 32) hv).toNat = x.toNat + 32 := by
        simp [Char.ofNatAux, Char.toNat, UInt32.toNat, UInt32.ofNatCore,
          BitVec.toNat_ofNatLt]
      rw [haux] at hth
      have h92 : ('\\').toNat = 92 := rfl
      omega
    · rw [if_neg (by simpa using hr)] at h
      exact h
  · intro h
    subst h
    decide

theorem lowerStr_splitChar (s : Str) :
    splitChar '\\' (lowerStr s) = (splitChar '\\' s).map lowerStr := by
  induction s with
  | nil => rfl
  | cons x xs ih =>
    simp only [lowerStr, List.map_cons]
    by_cases hx : x = '\\'
    · subst hx
      rw [show lowerChar '\\' = '\\' from rfl]
      simp only [splitChar, if_pos rfl]
      rw [show List.map lowerChar xs = lowerStr xs from rfl, ih]
      rfl
    · have hlx : ¬lowerChar x = '\\' := fun hc => hx ((lowerChar_backslash x).mp hc)
      simp only [splitChar, if_neg hlx, if_neg hx]
      rw [show List.map lowerChar xs = lowerStr xs from rfl, ih]
      cases hsp : splitChar '\\' xs with
      | nil => exact absurd hsp (splitChar_ne_nil _ _)
      | cons hh tt => simp [lowerStr]

theorem trimArray_map_lowerStr (l : List Str) :
    trimArray (l.map lowerStr) = (trimArray l).map lowerStr := by
  have hkey : ((fun x : Str => x.isEmpty) ∘ lowerStr) = (fun x : Str => x.isEmpty) := by
    funext y
    cases y <;> rfl
  unfold trimArray
  rw [List.dropWhile_map, hkey, ← List.map_reverse, List.dropWhile_map, hkey,
    ← List.map_reverse]

set_option maxHeartbeats 1600000 in
/-- Claim C4: the Windows driver's `relative` resolves both arguments,
determines the common-prefix length by comparing path segments
case-insensitively, and returns one `".."` per remaining `from` segment
followed by the remaining `to` segments in their original case; when zero
segments are shared it returns the resolved `to` unchanged.  In
particular `relative("C:\\orandea\\test\\aaa", "C:\\orandea\\impl\\bbb")
= "..\\..\\impl\\bbb"` and `relative("c:\\a", "C:\\a\\b") = "b"`, for any
driver state. -/
theorem C4_win32_relative :
    (∀ (env : List (Str × Str)) (cwd fromP toP : Str),
      win32Relative env cwd fromP toP =
        (let t := win32Resolve env cwd [toP]
         let fromParts := trimArray (splitChar '\\' (win32Resolve env cwd [fromP]))
         let toParts := trimArray (splitChar '\\' t)
         let n := commonPrefixLen (fromParts.map lowerStr) (toParts.map lowerStr)
         if n = 0 then t
         else joinSep '\\'
           (List.replicate (fromParts.length - n) ['.', '.'] ++ toParts.drop n))) ∧
    (∀ (env : List (Str × Str)) (cwd : Str),
      win32Relative env cwd
        ['C', ':', '\\', 'o', 'r', 'a', 'n', 'd', 'e', 'a',
          '\\', 't', 'e', 's', 't', '\\', 'a', 'a', 'a']
        ['C', ':', '\\', 'o', 'r', 'a', 'n', 'd', 'e', 'a',
          '\\', 'i', 'm', 'p', 'l', '\\', 'b', 'b', 'b'] =
        ['.', '.', '\\', '.', '.', '\\', 'i', 'm', 'p', 'l', '\\', 'b', 'b', 'b']) ∧
    (∀ (env : List (Str × Str)) (cwd : Str),
      win32Relative env cwd ['c', ':', '\\', 'a'] ['C', ':', '\\', 'a', '\\', 'b'] =
        ['b']) := by
  refine ⟨?_, ?_, ?_⟩
  · intro env cwd fromP toP
    simp only [win32Relative]
    rw [lowerStr_splitChar, lowerStr_splitChar, trimArray_map_lowerStr,
      trimArray_map_lowerStr, samePartsLength_eq_commonPrefixLen, List.length_map]
  · intro env cwd
    rfl
  · intro env cwd
    rfl

/-- Claim C8: for every string input `p` and on each driver, the
`PathInfo` returned by `parse(p)` satisfies `base = name ++ ext`. -/
theorem C8_parse_base_name_ext (p : Str) :
    (win32Parse p).base = (win32Parse p).name ++ (win32Parse p).ext ∧
    (posixParse p).base = (posixParse p).name ++ (posixParse p).ext :=
  ⟨(extSplit_name_append win32ExtOk ((win32SplitParts p).2.2.1)).symm,
   (extSplit_name_append posixExtOk ((posixSplitParts p).2.2.1)).symm⟩

/-! ### Structural facts about the device split -/

theorem splitG2_append (g1 rest : Str) :
    g1 ++ (splitG2 g1 rest).2.1 ++ (splitG2 g1 rest).2.2 = g1 ++ rest := by
  cases rest with
  | nil => simp [splitG2]
  | cons c r =>
    by_cases hc : isSep c = true
    · simp [splitG2, hc]
    · simp [splitG2, hc]

theorem splitG2_fst (g1 rest : Str) : (splitG2 g1 rest).1 = g1 := by
  cases rest with
  | nil => rfl
  | cons c r =>
    by_cases hc : isSep c = true
    · simp [splitG2, hc]
    · simp [splitG2, hc]

theorem splitDevice_eq_some (s : Str) (dr : Str × Str)
    (h : matchDevice s = some dr) : splitDevice s = splitG2 dr.1 dr.2 := by
  unfold splitDevice
  rw [h]

theorem splitDevice_eq_none (s : Str) (h : matchDevice s = none) :
    splitDevice s = splitG2 [] s := by
  unfold splitDevice
  rw [h]

theorem matchDevice_append (s : Str) (dr : Str × Str) (h : matchDevice s = some dr) :
    s = dr.1 ++ dr.2 := by
  cases s with
  | nil => simp [matchDevice] at h
  | cons c₁ s₁ =>
    cases s₁ with
    | nil => simp [matchDevice] at h
    | cons c₂ r =>
      simp only [matchDevice] at h
      by_cases h1 : (isLetter c₁ && c₂ == ':') = true
      · rw [if_pos h1] at h
        injection h with h
        subst h
        rfl
      · rw [if_neg h1] at h
        by_cases h2 : (isSep c₁ && isSep c₂) = true
        · rw [if_pos h2] at h
          split at h
          · injection h with h
            subst h
            show c₁ :: c₂ :: r = c₁ :: c₂ :: (_ ++ _ ++ _) ++ _
            simp only [List.cons_append, List.cons.injEq, true_and,
              List.append_assoc]
            conv_lhs => rw [← List.takeWhile_append_dropWhile
              (fun c => !isSep c) r]
            congr 1
            conv_lhs => rw [← List.takeWhile_append_dropWhile isSep
              (r.dropWhile (fun c => !isSep c))]
            congr 1
            exact (List.takeWhile_append_dropWhile (fun c => !isSep c) _).symm
          · exact absurd h (by simp)
        · rw [if_neg h2] at h
          exact absurd h (by simp)

theorem splitDevice_append (s : Str) :
    s = (splitDevice s).1 ++ (splitDevice s).2.1 ++ (splitDevice s).2.2 := by
  cases hm : matchDevice s with
  | none =>
    rw [splitDevice_eq_none s hm, splitG2_fst]
    have h2 := splitG2_append [] s
    simpa using h2.symm
  | some dr =>
    rw [splitDevice_eq_some s dr hm, splitG2_fst,
      matchDevice_append s dr hm]
    exact (splitG2_append dr.1 dr.2).symm

/-! ### Dynamically-typed argument handling (JS values) -/

/-- A JavaScript value as far as the drivers' argument checks observe
it: a string, or one of the non-string shapes used by the spec's error
cases (`PathInfo` stands in for a generic object, as in the typed
interface). -/
inductive JSVal where
  | str (s : Str)
  | num (n : Int)
  | boolean (b : Bool)
  | null
  | undef
  | obj (o : PathInfo)
deriving Repr, DecidableEq

/-- JavaScript `typeof`. -/
def jsTypeof : JSVal → Str
  | .str _ => ['s', 't', 'r', 'i', 'n', 'g']
  | .num _ => ['n', 'u', 'm', 'b', 'e', 'r']
  | .boolean _ => ['b', 'o', 'o', 'l', 'e', 'a', 'n']
  | .null => ['o', 'b', 'j', 'e', 'c', 't']
  | .undef => ['u', 'n', 'd', 'e', 'f', 'i', 'n', 'e', 'd']
  | .obj _ => ['o', 'b', 'j', 'e', 'c', 't']

/-- Source: `isString(value)`: `typeof(value) === "string"` (both
drivers). -/
def isString (v : JSVal) : Bool := jsTypeof v == ['s', 't', 'r', 'i', 'n', 'g']

/-- Source: `isObject(value)`: `typeof(value) === "object"` (both
drivers); note that `typeof null` is `"object"`. -/
def isObject (v : JSVal) : Bool := jsTypeof v == ['o', 'b', 'j', 'e', 'c', 't']

/-- The error outcomes the drivers can signal: the invalid-argument
`TypeError`s thrown by the explicit guards, and the `TypeError` raised by
reading a property of `null`. -/
inductive JsErr where
  | invalidArg
  | nullRead (field : Str)
deriving Repr, DecidableEq

/-- Source: win32 `format(pathObject)` (lines 373-398) on an arbitrary
value: a non-object per `isObject` is rejected with the invalid-argument
TypeError; `null` passes that guard (`typeof null` is `"object"`) and
the subsequent property read `pathObject.root` throws; an object formats
as `win32Format`. -/
def win32FormatDyn : JSVal → Except JsErr Str
  | .obj o => .ok (win32Format o)
  | .null => .error (.nullRead ['r', 'o', 'o', 't'])
  | _ => .error .invalidArg

/-- Source: posix `format(pathObject)` (lines 662-681), as above. -/
def posixFormatDyn : JSVal → Except JsErr Str
  | .obj o => .ok (posixFormat o)
  | .null => .error (.nullRead ['r', 'o', 'o', 't'])
  | _ => .error .invalidArg

/-- Source: win32 `parse(pathString)` (lines 401-418) on an arbitrary
value: non-strings are rejected; for a string the guard
`!allParts || allParts.length !== 4` rejects a split that does not have
exactly four components. -/
def win32ParseDyn : JSVal → Except JsErr PathInfo
  | .str s =>
    match win32SplitPath s with
    | [r, d, b, e] =>
      .ok { root := r, dir := r ++ d.dropLast, base := b, ext := e,
            name := b.take (b.length - e.length) }
    | _ => .error .invalidArg
  | _ => .error .invalidArg

/-- Source: posix `parse(pathString)` (lines 684-705), as above. -/
def posixParseDyn : JSVal → Except JsErr PathInfo
  | .str s =>
    match posixSplitPath s with
    | [r, d, b, e] =>
      .ok { root := r, dir := r ++ d.dropLast, base := b, ext := e,
            name := b.take (b.length - e.length) }
    | _ => .error .invalidArg
  | _ => .error .invalidArg

/-- Source: the posix `join` loop (lines 576-592) over arbitrary values:
the first non-string argument (in order) raises the invalid-argument
TypeError; nonempty string segments are concatenated with `/`. -/
def posixJoinGo : List JSVal → Str → Except JsErr Str
  | [], path => .ok (posixNormalize path)
  | v :: rest, path =>
    match v with
    | .str seg =>
      posixJoinGo rest
        (if seg.isEmpty then path
         else if path.isEmpty then seg
         else path ++ '/' :: seg)
    | _ => .error .invalidArg

def posixJoinDyn (args : List JSVal) : Except JsErr Str :=
  posixJoinGo args []

/-- Source: the `filter` callback of win32 `join` (lines 244-249): it
visits the arguments in order, throws on the first non-string, and keeps
the nonempty strings. -/
def w32FilterStrings : List JSVal → Except JsErr (List Str)
  | [] => .ok []
  | .str s :: rest =>
    (w32FilterStrings rest).map (fun l => if s.isEmpty then l else s :: l)
  | _ :: _ => .error .invalidArg

/-- Source: win32 `join(...paths)` (lines 243-271) over arbitrary
values. -/
def win32JoinDyn (args : List JSVal) : Except JsErr Str :=
  (w32FilterStrings args).map (fun kept =>
    let joined := joinSep '\\' kept
    let joined :=
      if (match kept.head? with
          | some (a :: b :: c :: _) => isSep a && isSep b && !isSep c
          | _ => false) then joined
      else if 2 ≤ (joined.takeWhile isSep).length then '\\' :: joined.dropWhile isSep
      else joined
    win32Normalize joined)

/-- Source: the posix `resolve` loop (lines 527-539) over arbitrary
values: the arguments are scanned from last to first while no absolute
path has been found, and a non-string raises the invalid-argument
TypeError when it is reached; the final entry is the driver's (string)
`cwd`. -/
def posixResolveGoDyn (cwd : Str) : List JSVal → Str → Bool → Except JsErr (Str × Bool)
  | [], acc, abs =>
    if abs then .ok (acc, abs)
    else if cwd.isEmpty then .ok (acc, abs)
    else .ok (cwd ++ '/' :: acc, cwd.head? == some '/')
  | v :: rest, acc, abs =>
    if abs then .ok (acc, abs)
    else
      match v with
      | .str p =>
        if p.isEmpty then posixResolveGoDyn cwd rest acc abs
        else posixResolveGoDyn cwd rest (p ++ '/' :: acc) (p.head? == some '/')
      | _ => .error .invalidArg

def posixResolveDyn (cwd : Str) (args : List JSVal) : Except JsErr Str :=
  (posixResolveGoDyn cwd args.reverse [] false).map (fun st =>
    let resolved := joinSep '/' (normalizeArray (splitChar '/' st.1) (!st.2))
    let r := (if st.2 then ['/'] else []) ++ resolved
    if r.isEmpty then ['.'] else r)

/-- Source: the win32 `resolve` loop (lines 146-194) over arbitrary
values: a non-string raises the invalid-argument TypeError when it is
reached; the loop breaks once a device and an absolute root are
resolved. -/
def w32GoDyn (env : List (Str × Str)) (cwd : Str) :
    List JSVal → W32St → Except JsErr W32St
  | [], st =>
    let path := w32CwdPath env cwd st
    .ok (if path.isEmpty then st else w32Step st path)
  | v :: rest, st =>
    match v with
    | .str p =>
      if p.isEmpty then w32GoDyn env cwd rest st
      else
        let st1 := w32Step st p
        if st1.device ≠ [] ∧ st1.absolute then .ok st1
        else w32GoDyn env cwd rest st1
    | _ => .error .invalidArg

def win32ResolveDyn (env : List (Str × Str)) (cwd : Str) (args : List JSVal) :
    Except JsErr Str :=
  (w32GoDyn env cwd args.reverse
      { device := [], tail := [], absolute := false, unc := false }).map (fun st =>
    let device := if st.unc then normalizeUNCRoot st.device else st.device
    let tail := joinSep '\\' (normalizeArray (splitRuns isSep st.tail) (!st.absolute))
    let r := device ++ (if st.absolute then ['\\'] else []) ++ tail
    if r.isEmpty then ['.'] else r)

/-- Claim C9: for every string input, `parse` on either driver returns a
`PathInfo` and never signals the malformed-input invalid-argument error:
the split pattern matches every string, always yields exactly four
captured components (so the rejecting branch is unreachable for string
inputs), and the captures reassemble to the input up to the dropped
trailing separator run. -/
theorem C9_parse_total (s : Str) :
    (win32SplitPath s).length = 4 ∧
    (posixSplitPath s).length = 4 ∧
    win32ParseDyn (.str s) = .ok (win32Parse s) ∧
    posixParseDyn (.str s) = .ok (posixParse s) ∧
    (∃ ss, (∀ c ∈ ss, isSep c = true) ∧
      s = (win32SplitParts s).1 ++ (win32SplitParts s).2.1 ++
          (win32SplitParts s).2.2.1 ++ ss) ∧
    (∃ ss, (∀ c ∈ ss, isSlash c = true) ∧
      s = (posixSplitParts s).1 ++ (posixSplitParts s).2.1 ++
          (posixSplitParts s).2.2.1 ++ ss) := by
  refine ⟨rfl, rfl, rfl, rfl, ?_, ?_⟩
  · obtain ⟨heq, hss, _, _⟩ :=
      splitTail_decomp isSep win32ExtOk (splitDevice s).2.2
    refine ⟨((splitDevice s).2.2.reverse.takeWhile isSep).reverse, hss, ?_⟩
    have hdev := splitDevice_append s
    show s = (((splitDevice s).1 ++ (splitDevice s).2.1) ++
      (splitTailParts isSep win32ExtOk (splitDevice s).2.2).1 ++
      (splitTailParts isSep win32ExtOk (splitDevice s).2.2).2.1) ++
      ((splitDevice s).2.2.reverse.takeWhile isSep).reverse
    simp only [List.append_assoc] at heq hdev ⊢
    rw [← heq]
    exact hdev
  · by_cases hh : s.head? = some '/'
    · obtain ⟨x, rest, rfl⟩ : ∃ x xs, s = x :: xs := by
        cases s with
        | nil => simp at hh
        | cons x xs => exact ⟨x, xs, rfl⟩
      have hx : x = '/' := by simpa using hh
      subst hx
      obtain ⟨heq, hss, _, _⟩ := splitTail_decomp isSlash posixExtOk rest
      refine ⟨(rest.reverse.takeWhile isSlash).reverse, hss, ?_⟩
      have hps : posixSplitParts ('/' :: rest) =
          (['/'], (splitTailParts isSlash posixExtOk rest).1,
            (splitTailParts isSlash posixExtOk rest).2.1,
            (splitTailParts isSlash posixExtOk rest).2.2) := by
        simp [posixSplitParts]
      rw [hps]
      show ('/' :: rest : Str) =
        ((['/'] ++ (splitTailParts isSlash posixExtOk rest).1) ++
          (splitTailParts isSlash posixExtOk rest).2.1) ++
          (rest.reverse.takeWhile isSlash).reverse
      simp only [List.append_assoc, List.singleton_append, List.cons_append] at heq ⊢
      exact congrArg (List.cons '/') heq
    · obtain ⟨heq, hss, _, _⟩ := splitTail_decomp isSlash posixExtOk s
      refine ⟨(s.reverse.takeWhile isSlash).reverse, hss, ?_⟩
      have hps : posixSplitParts s =
          ([], (splitTailParts isSlash posixExtOk s).1,
            (splitTailParts isSlash posixExtOk s).2.1,
            (splitTailParts isSlash posixExtOk s).2.2) := by
        simp [posixSplitParts, hh]
      rw [hps]
      show s = (([] ++ (splitTailParts isSlash posixExtOk s).1) ++
          (splitTailParts isSlash posixExtOk s).2.1) ++
          (s.reverse.takeWhile isSlash).reverse
      simp only [List.append_assoc, List.nil_append] at heq ⊢
      exact heq

/-- Claim C10: for the input value `null`, `format` on either driver does
not signal the non-object invalid-argument error: the object guard
classifies `null` as an object (`typeof null` is `"object"`), so the
non-object branch is not taken and the call instead fails reading the
`root` field of `null`. -/
theorem C10_format_null :
    isObject JSVal.null = true ∧
    win32FormatDyn JSVal.null = .error (.nullRead ['r', 'o', 'o', 't']) ∧
    posixFormatDyn JSVal.null = .error (.nullRead ['r', 'o', 'o', 't']) ∧
    win32FormatDyn JSVal.null ≠ .error .invalidArg ∧
    posixFormatDyn JSVal.null ≠ .error .invalidArg := by
  refine ⟨rfl, rfl, rfl, ?_, ?_⟩ <;> simp [win32FormatDyn, posixFormatDyn]

theorem posixJoinGo_err (v : JSVal) (hv : isString v = false) :
    ∀ (args : List JSVal) (path : Str), v ∈ args →
      posixJoinGo args path = .error .invalidArg := by
  intro args
  induction args with
  | nil => intro path h; simp at h
  | cons a rest ih =>
    intro path hmem
    cases a with
    | str s =>
      have hvrest : v ∈ rest := by
        rcases List.mem_cons.mp hmem with h | h
        · subst h; simp [isString, jsTypeof] at hv
        · exact h
      exact ih _ hvrest
    | num n => rfl
    | boolean b => rfl
    | null => rfl
    | undef => rfl
    | obj o => rfl

theorem w32FilterStrings_err (v : JSVal) (hv : isString v = false) :
    ∀ args : List JSVal, v ∈ args →
      w32FilterStrings args = .error .invalidArg := by
  intro args
  induction args with
  | nil => intro h; simp at h
  | cons a rest ih =>
    intro hmem
    cases a with
    | str s =>
      have hvrest : v ∈ rest := by
        rcases List.mem_cons.mp hmem with h | h
        · subst h; simp [isString, jsTypeof] at hv
        · exact h
      show (w32FilterStrings rest).map _ = _
      rw [ih hvrest]
      rfl
    | num n => rfl
    | boolean b => rfl
    | null => rfl
    | undef => rfl
    | obj o => rfl

theorem posixResolveGoDyn_err (cwd : Str) :
    ∀ (l : List JSVal) (acc : Str),
      (∃ v ∈ l, isString v = false) →
      (∀ s, JSVal.str s ∈ l → s.head? ≠ some '/') →
      posixResolveGoDyn cwd l acc false = .error .invalidArg := by
  intro l
  induction l with
  | nil => intro acc h _; simp at h
  | cons a rest ih =>
    intro acc hex habs
    cases a with
    | str s =>
      have hex' : ∃ v ∈ rest, isString v = false := by
        obtain ⟨v, hv1, hv2⟩ := hex
        rcases List.mem_cons.mp hv1 with h | h
        · subst h; simp [isString, jsTypeof] at hv2
        · exact ⟨v, h, hv2⟩
      have habs' : ∀ t, JSVal.str t ∈ rest → t.head? ≠ some '/' :=
        fun t ht => habs t (List.mem_cons_of_mem _ ht)
      have hs : (s.head? == some '/') = false := by
        have := habs s (List.mem_cons_self _ _)
        simpa using this
      show (if (false : Bool) = true then _
        else match JSVal.str s with
          | JSVal.str p =>
            if p.isEmpty then posixResolveGoDyn cwd rest acc false
            else posixResolveGoDyn cwd rest (p ++ '/' :: acc) (p.head? == some '/')
          | _ => Except.error JsErr.invalidArg) = Except.error JsErr.invalidArg
      simp only [if_neg (by simp : ¬(false : Bool) = true)]
      by_cases he : s.isEmpty = true
      · rw [if_pos he]
        exact ih acc hex' habs'
      · rw [if_neg he, hs]
        exact ih _ hex' habs'
    | num n => rfl
    | boolean b => rfl
    | null => rfl
    | undef => rfl
    | obj o => rfl

theorem w32Step_keeps_nonabsolute (st : W32St) (p : Str)
    (h1 : st.absolute = false) (h2 : (statPath p).isAbsolute = false) :
    (w32Step st p).absolute = false := by
  by_cases hc : (statPath p).device ≠ [] ∧ st.device ≠ [] ∧
      lowerStr (statPath p).device ≠ lowerStr st.device
  · simp [w32Step, hc, h1]
  · simp [w32Step, hc, h1, h2]

theorem w32GoDyn_err (env : List (Str × Str)) (cwd : Str) :
    ∀ (l : List JSVal) (st : W32St), st.absolute = false →
      (∃ v ∈ l, isString v = false) →
      (∀ s, JSVal.str s ∈ l → (statPath s).isAbsolute = false) →
      w32GoDyn env cwd l st = .error .invalidArg := by
  intro l
  induction l with
  | nil => intro st _ h _; simp at h
  | cons a rest ih =>
    intro st hst hex habs
    cases a with
    | str s =>
      have hex' : ∃ v ∈ rest, isString v = false := by
        obtain ⟨v, hv1, hv2⟩ := hex
        rcases List.mem_cons.mp hv1 with h | h
        · subst h; simp [isString, jsTypeof] at hv2
        · exact ⟨v, h, hv2⟩
      have habs' : ∀ t, JSVal.str t ∈ rest → (statPath t).isAbsolute = false :=
        fun t ht => habs t (List.mem_cons_of_mem _ ht)
      have hstep := w32Step_keeps_nonabsolute st s hst
        (habs s (List.mem_cons_self _ _))
      show (if s.isEmpty then w32GoDyn env cwd rest st
        else if (w32Step st s).device ≠ [] ∧ (w32Step st s).absolute then .ok (w32Step st s)
        else w32GoDyn env cwd rest (w32Step st s)) = _
      by_cases he : s.isEmpty = true
      · rw [if_pos he]
        exact ih st hst hex' habs'
      · rw [if_neg he, if_neg (by simp [hstep])]
        exact ih _ hstep hex' habs'
    | num n => rfl
    | boolean b => rfl
    | null => rfl
    | undef => rfl
    | obj o => rfl

/-- Claim C7 (amended): `join` on both drivers signals invalid-argument
whenever any argument is a non-string; `resolve` on both drivers signals
invalid-argument when the right-to-left scan reaches a non-string, in
particular whenever some argument is a non-string and no string argument
is absolute; `resolve(42)` and `join(null)` signal invalid-argument.  (A
non-string is not signaled when a later argument already completes
resolution, see the counterexample.) -/
theorem C7_invalid_args :
    (∀ (args : List JSVal) (v : JSVal), v ∈ args → isString v = false →
        posixJoinDyn args = .error .invalidArg ∧
        win32JoinDyn args = .error .invalidArg) ∧
    (∀ (cwd : Str) (args : List JSVal),
        (∃ v ∈ args, isString v = false) →
        (∀ s, JSVal.str s ∈ args → s.head? ≠ some '/') →
        posixResolveDyn cwd args = .error .invalidArg) ∧
    (∀ (env : List (Str × Str)) (cwd : Str) (args : List JSVal),
        (∃ v ∈ args, isString v = false) →
        (∀ s, JSVal.str s ∈ args → (statPath s).isAbsolute = false) →
        win32ResolveDyn env cwd args = .error .invalidArg) ∧
    (∀ cwd : Str, posixResolveDyn cwd [JSVal.num 42] = .error .invalidArg) ∧
    (∀ (env : List (Str × Str)) (cwd : Str),
        win32ResolveDyn env cwd [JSVal.num 42] = .error .invalidArg) ∧
    posixJoinDyn [JSVal.null] = .error .invalidArg ∧
    win32JoinDyn [JSVal.null] = .error .invalidArg := by
  refine ⟨?_, ?_, ?_, ?_, ?_, rfl, rfl⟩
  · intro args v hmem hv
    constructor
    · exact posixJoinGo_err v hv args [] hmem
    · show (w32FilterStrings args).map _ = _
      rw [w32FilterStrings_err v hv args hmem]
      rfl
  · intro cwd args hex habs
    show (posixResolveGoDyn cwd args.reverse [] false).map _ = _
    rw [posixResolveGoDyn_err cwd args.reverse []
      (by obtain ⟨v, h1, h2⟩ := hex; exact ⟨v, List.mem_reverse.mpr h1, h2⟩)
      (fun s hs => habs s (List.mem_reverse.mp hs))]
    rfl
  · intro env cwd args hex habs
    show (w32GoDyn env cwd args.reverse _).map _ = _
    rw [w32GoDyn_err env cwd args.reverse _ rfl
      (by obtain ⟨v, h1, h2⟩ := hex; exact ⟨v, List.mem_reverse.mpr h1, h2⟩)
      (fun s hs => habs s (List.mem_reverse.mp hs))]
    rfl
  · intro cwd
    rfl
  · intro env cwd
    rfl

/-- Claim C7 counterexample: a non-string argument does not always
signal: on the posix driver `resolve(42, "/a")` stops at the absolute
last argument before reaching `42` and returns `"/a"` without error. -/
theorem C7_counterexample :
    posixResolveDyn [] [JSVal.num 42, JSVal.str ['/', 'a']] = .ok ['/', 'a'] := rfl

/-- Witness for C7: concrete invalid-argument calls. -/
theorem C7_witness :
    posixJoinDyn [JSVal.num 7, JSVal.str ['a']] = .error .invalidArg ∧
    win32JoinDyn [JSVal.num 7, JSVal.str ['a']] = .error .invalidArg ∧
    posixResolveDyn [] [JSVal.num 7, JSVal.str ['a']] = .error .invalidArg ∧
    win32ResolveDyn [] [] [JSVal.num 7, JSVal.str ['a']] = .error .invalidArg := by
  obtain ⟨hj, hrp, hrw, _⟩ := C7_invalid_args
  refine ⟨(hj _ (JSVal.num 7) (by simp) rfl).1,
    (hj _ (JSVal.num 7) (by simp) rfl).2, ?_, ?_⟩
  · refine hrp [] _ ⟨JSVal.num 7, by simp, rfl⟩ ?_
    intro s hs
    simp at hs
    subst hs
    simp
  · refine hrw [] [] _ ⟨JSVal.num 7, by simp, rfl⟩ ?_
    intro s hs
    simp at hs
    subst hs
    rfl

/-! ### Lemmas about run splitting (win32 round trip, C2) -/

theorem splitRunsAux_ne_nil (sep : Char → Bool) :
    ∀ (s : Str) (m : Bool), splitRunsAux sep m s ≠ [] := by
  intro s
  induction s with
  | nil => intro m; simp [splitRunsAux]
  | cons x xs ih =>
    intro m
    by_cases hx : sep x = true
    · cases m
      · simp [splitRunsAux, hx]
      · simpa [splitRunsAux, hx] using ih true
    · simp only [splitRunsAux, hx, Bool.false_eq_true, if_false]
      cases hs : splitRunsAux sep false xs with
      | nil => exact absurd hs (ih false)
      | cons h t => simp

theorem splitRunsAux_true_skip (sep : Char → Bool) :
    ∀ (r : Str), (∀ c ∈ r, sep c = true) → ∀ (y : Str),
      splitRunsAux sep true (r ++ y) = splitRunsAux sep true y := by
  intro r
  induction r with
  | nil => intro _ y; rfl
  | cons c r' ih =>
    intro hall y
    have hc : sep c = true := hall c (by simp)
    show splitRunsAux sep true (c :: (r' ++ y)) = _
    simp only [splitRunsAux, hc, if_true]
    exact ih (fun d hd => hall d (List.mem_cons_of_mem c hd)) y

theorem splitRunsAux_true_eq_false (sep : Char → Bool) (y : Str)
    (hy : y = [] ∨ ∃ c ys, y = c :: ys ∧ sep c = false) :
    splitRunsAux sep true y = splitRunsAux sep false y := by
  rcases hy with rfl | ⟨c, ys, rfl, hc⟩
  · rfl
  · simp [splitRunsAux, hc]

/-- Replacing one maximal nonempty separator run by another, between a
context ending in a non-separator (or empty) and a context starting with
a non-separator (or empty), does not change run splitting. -/
theorem splitRuns_swap (sep : Char → Bool) (r r' : Str)
    (hr : r ≠ []) (hra : ∀ c ∈ r, sep c = true)
    (hr' : r' ≠ []) (hra' : ∀ c ∈ r', sep c = true)
    (y : Str) :
    ∀ (x : Str), (x = [] ∨ ∃ c, x.getLast? = some c ∧ sep c = false) →
      ∀ (m : Bool),
      splitRunsAux sep m (x ++ r ++ y) = splitRunsAux sep m (x ++ r' ++ y) := by
  have hone : ∀ (rr : Str), rr ≠ [] → (∀ c ∈ rr, sep c = true) → ∀ m,
      splitRunsAux sep m (rr ++ y) =
        (if m then id else List.cons []) (splitRunsAux sep true y) := by
    intro rr hrr hrra m
    obtain ⟨c, rr₂, rfl⟩ : ∃ c t, rr = c :: t := by
      cases rr with
      | nil => exact absurd rfl hrr
      | cons c t => exact ⟨c, t, rfl⟩
    have hc : sep c = true := hrra c (by simp)
    have hskip := splitRunsAux_true_skip sep rr₂
      (fun d hd => hrra d (List.mem_cons_of_mem c hd)) y
    cases m
    · show splitRunsAux sep false (c :: (rr₂ ++ y)) = _
      simp only [splitRunsAux, hc, if_true]
      rw [hskip]
      rfl
    · show splitRunsAux sep true (c :: (rr₂ ++ y)) = _
      simp only [splitRunsAux, hc, if_true]
      rw [hskip]
      rfl
  intro x
  induction x with
  | nil =>
    intro _ m
    simp only [List.nil_append]
    rw [hone r hr hra m, hone r' hr' hra' m]
  | cons c x' ih =>
    intro hx m
    by_cases hc : sep c = true
    · have hx' : x' ≠ [] ∧ (∃ d, x'.getLast? = some d ∧ sep d = false) := by
        rcases hx with hx | ⟨d, hd1, hd2⟩
        · simp at hx
        · cases hx0 : x' with
          | nil =>
            subst hx0
            simp at hd1
            rw [hd1] at hc
            rw [hc] at hd2
            simp at hd2
          | cons e t =>
            refine ⟨by simp, d, ?_, hd2⟩
            rw [← hx0]
            rw [hx0] at hd1 ⊢
            rwa [List.getLast?_cons_cons] at hd1
      have ihx := ih (Or.inr hx'.2)
      cases m
      · show splitRunsAux sep false (c :: (x' ++ r ++ y)) = _
        simp only [splitRunsAux, hc, if_true]
        rw [ihx true]
        rfl
      · show splitRunsAux sep true (c :: (x' ++ r ++ y)) = _
        simp only [splitRunsAux, hc, if_true]
        rw [ihx true]
        rfl
    · have hx' : x' = [] ∨ ∃ d, x'.getLast? = some d ∧ sep d = false := by
        rcases hx with hx | ⟨d, hd1, hd2⟩
        · simp at hx
        · cases hx0 : x' with
          | nil => exact Or.inl rfl
          | cons e t =>
            refine Or.inr ⟨d, ?_, hd2⟩
            rw [hx0] at hd1
            rwa [List.getLast?_cons_cons] at hd1
      have ihx := ih hx' false
      cases m
      · show splitRunsAux sep false (c :: (x' ++ r ++ y)) = _
        simp only [splitRunsAux, hc, Bool.false_eq_true, if_false]
        rw [ihx]
        rfl
      · show splitRunsAux sep true (c :: (x' ++ r ++ y)) = _
        simp only [splitRunsAux, hc, Bool.false_eq_true, if_false]
        rw [ihx]
        rfl

/-! ### Evaluation lemmas for the device pattern (win32 round trip, C2) -/

theorem takeWhile_append_all (p : Char → Bool) :
    ∀ (l₁ l₂ : Str), (∀ c ∈ l₁, p c = true) →
      (l₁ ++ l₂).takeWhile p = l₁ ++ l₂.takeWhile p := by
  intro l₁
  induction l₁ with
  | nil => intro l₂ _; rfl
  | cons c t ih =>
    intro l₂ hall
    have hc : p c = true := hall c (by simp)
    simp only [List.cons_append, List.takeWhile_cons, hc, if_true]
    rw [ih l₂ (fun d hd => hall d (List.mem_cons_of_mem c hd))]

theorem dropWhile_append_all (p : Char → Bool) :
    ∀ (l₁ l₂ : Str), (∀ c ∈ l₁, p c = true) →
      (l₁ ++ l₂).dropWhile p = l₂.dropWhile p := by
  intro l₁
  induction l₁ with
  | nil => intro l₂ _; rfl
  | cons c t ih =>
    intro l₂ hall
    have hc : p c = true := hall c (by simp)
    simp only [List.cons_append, List.dropWhile_cons, hc, if_true]
    exact ih l₂ (fun d hd => hall d (List.mem_cons_of_mem c hd))

theorem takeWhile_eq_nil_of_head (p : Char → Bool) (l : Str)
    (h : l = [] ∨ ∃ c t, l = c :: t ∧ p c = false) : l.takeWhile p = [] := by
  rcases h with rfl | ⟨c, t, rfl, hc⟩
  · rfl
  · simp [List.takeWhile_cons, hc]

theorem dropWhile_eq_self_of_head (p : Char → Bool) (l : Str)
    (h : l = [] ∨ ∃ c t, l = c :: t ∧ p c = false) : l.dropWhile p = l := by
  rcases h with rfl | ⟨c, t, rfl, hc⟩
  · rfl
  · simp [List.dropWhile_cons, hc]

theorem isSep_not_isLetter (c : Char) (h : isSep c = true) : isLetter c = false := by
  have : c = '\\' ∨ c = '/' := by
    simp only [isSep, Bool.or_eq_true, beq_iff_eq] at h
    exact h
  rcases this with rfl | rfl <;> decide

theorem matchDevice_letter (l : Char) (r : Str) (hl : isLetter l = true) :
    matchDevice (l :: ':' :: r) = some ([l, ':'], r) := by
  simp [matchDevice, hl]

/-- Evaluating the UNC alternative of the device pattern on a string built
from its components. -/
theorem matchDevice_unc (a b : Char) (host ss share rest : Str)
    (ha : isSep a = true) (hb : isSep b = true)
    (hh : host ≠ []) (hha : ∀ c ∈ host, isSep c = false)
    (hs : ss ≠ []) (hsa : ∀ c ∈ ss, isSep c = true)
    (hsh : share ≠ []) (hsha : ∀ c ∈ share, isSep c = false)
    (hr : rest = [] ∨ ∃ c t, rest = c :: t ∧ isSep c = true) :
    matchDevice (a :: b :: (host ++ (ss ++ (share ++ rest)))) =
      some (a :: b :: (host ++ ss ++ share), rest) := by
  have hla : isLetter a = false := isSep_not_isLetter a ha
  have hssform : ∃ c t, ss ++ (share ++ rest) = c :: t ∧ (!isSep c) = false := by
    obtain ⟨c, t, rfl⟩ : ∃ c t, ss = c :: t := by
      cases ss with
      | nil => exact absurd rfl hs
      | cons c t => exact ⟨c, t, rfl⟩
    exact ⟨c, t ++ (share ++ rest), by simp, by simp [hsa c (by simp)]⟩
  have h1 : (host ++ (ss ++ (share ++ rest))).takeWhile (fun c => !isSep c) = host := by
    rw [takeWhile_append_all _ _ _ (fun c hc => by simp [hha c hc]),
      takeWhile_eq_nil_of_head _ _ (Or.inr hssform), List.append_nil]
  have h2 : (host ++ (ss ++ (share ++ rest))).dropWhile (fun c => !isSep c) =
      ss ++ (share ++ rest) := by
    rw [dropWhile_append_all _ _ _ (fun c hc => by simp [hha c hc]),
      dropWhile_eq_self_of_head _ _ (Or.inr hssform)]
  have hshform : ∃ c t, share ++ rest = c :: t ∧ isSep c = false := by
    obtain ⟨c, t, rfl⟩ : ∃ c t, share = c :: t := by
      cases share with
      | nil => exact absurd rfl hsh
      | cons c t => exact ⟨c, t, rfl⟩
    exact ⟨c, t ++ rest, by simp, hsha c (by simp)⟩
  have h3 : (ss ++ (share ++ rest)).takeWhile isSep = ss := by
    rw [takeWhile_append_all _ _ _ hsa,
      takeWhile_eq_nil_of_head _ _ (Or.inr hshform), List.append_nil]
  have h4 : (ss ++ (share ++ rest)).dropWhile isSep = share ++ rest := by
    rw [dropWhile_append_all _ _ _ hsa,
      dropWhile_eq_self_of_head _ _ (Or.inr hshform)]
  have h5 : (share ++ rest).takeWhile (fun c => !isSep c) = share := by
    rw [takeWhile_append_all _ _ _ (fun c hc => by simp [hsha c hc])]
    rcases hr with rfl | ⟨c, t, rfl, hc⟩
    · simp
    · rw [takeWhile_eq_nil_of_head _ _ (Or.inr ⟨c, t, rfl, by simp [hc]⟩),
        List.append_nil]
  have h6 : (share ++ rest).dropWhile (fun c => !isSep c) = rest := by
    rw [dropWhile_append_all _ _ _ (fun c hc => by simp [hsha c hc])]
    rcases hr with rfl | ⟨c, t, rfl, hc⟩
    · simp
    · exact dropWhile_eq_self_of_head _ _ (Or.inr ⟨c, t, rfl, by simp [hc]⟩)
  show matchDevice (a :: b :: (host ++ (ss ++ (share ++ rest)))) = _
  simp only [matchDevice, hla, Bool.false_and, Bool.false_eq_true, if_false,
    ha, hb, Bool.and_self, if_true, h1, h2, h3, h4, h5, h6]
  simp [hh, hs, hsh]

theorem matchDevice_nil : matchDevice [] = none := rfl

theorem matchDevice_single (c : Char) : matchDevice [c] = none := rfl

theorem matchDevice_none_of (c₁ c₂ : Char) (r : Str)
    (h1 : (isLetter c₁ && (c₂ == ':')) = false)
    (h2 : (isSep c₁ && isSep c₂) = false) :
    matchDevice (c₁ :: c₂ :: r) = none := by
  simp only [matchDevice, h1, Bool.false_eq_true, if_false, h2]

theorem matchDevice_none_letter (c₁ c₂ : Char) (r : Str)
    (h : matchDevice (c₁ :: c₂ :: r) = none) :
    (isLetter c₁ && (c₂ == ':')) = false := by
  by_cases hc : (isLetter c₁ && (c₂ == ':')) = true
  · have hq : c₂ = ':' := by
      have := (Bool.and_eq_true _ _).mp hc
      exact eq_of_beq this.2
    subst hq
    rw [matchDevice_letter c₁ r ((Bool.and_eq_true _ _).mp hc).1] at h
    exact absurd h (by simp)
  · simpa using hc

/-- Inversion of a successful device match: the match came from the
drive-letter alternative or from the UNC alternative, and in the latter
case the remaining input starts with a separator (or is empty). -/
theorem matchDevice_some_inv (s : Str) (dr : Str × Str)
    (h : matchDevice s = some dr) :
    (∃ l r, s = l :: ':' :: r ∧ isLetter l = true ∧ dr = ([l, ':'], r)) ∨
    (∃ a b host ss share rest,
      s = a :: b :: (host ++ (ss ++ (share ++ rest))) ∧
      dr = (a :: b :: (host ++ ss ++ share), rest) ∧
      isSep a = true ∧ isSep b = true ∧
      host ≠ [] ∧ (∀ c ∈ host, isSep c = false) ∧
      ss ≠ [] ∧ (∀ c ∈ ss, isSep c = true) ∧
      share ≠ [] ∧ (∀ c ∈ share, isSep c = false) ∧
      (rest = [] ∨ ∃ c t, rest = c :: t ∧ isSep c = true)) := by
  cases s with
  | nil => exact absurd h (by simp [matchDevice])
  | cons c₁ s₁ =>
    cases s₁ with
    | nil => exact absurd h (by simp [matchDevice])
    | cons c₂ r =>
      by_cases hlc : (isLetter c₁ && (c₂ == ':')) = true
      · left
        have hq : c₂ = ':' := eq_of_beq ((Bool.and_eq_true _ _).mp hlc).2
        subst hq
        rw [matchDevice_letter c₁ r ((Bool.and_eq_true _ _).mp hlc).1] at h
        exact ⟨c₁, r, rfl, ((Bool.and_eq_true _ _).mp hlc).1,
          (Option.some_inj.mp h).symm⟩
      · right
        by_cases hsep : (isSep c₁ && isSep c₂) = true
        · simp only [matchDevice, hlc, Bool.false_eq_true, if_false, hsep,
            if_true] at h
          set host := r.takeWhile (fun c => !isSep c) with hhost
          set r₁ := r.dropWhile (fun c => !isSep c) with hr₁
          set ss := r₁.takeWhile isSep with hss
          set r₂ := r₁.dropWhile isSep with hr₂
          set share := r₂.takeWhile (fun c => !isSep c) with hshare
          set r₃ := r₂.dropWhile (fun c => !isSep c) with hr₃
          by_cases hg : host ≠ [] ∧ ss ≠ [] ∧ share ≠ []
          · rw [if_pos hg] at h
            refine ⟨c₁, c₂, host, ss, share, r₃, ?_, (Option.some_inj.mp h).symm,
              ((Bool.and_eq_true _ _).mp hsep).1, ((Bool.and_eq_true _ _).mp hsep).2,
              hg.1, ?_, hg.2.1, ?_, hg.2.2, ?_, ?_⟩
            · have e1 : host ++ r₁ = r := by
                rw [hhost, hr₁]
                exact List.takeWhile_append_dropWhile _ r
              have e2 : ss ++ r₂ = r₁ := by
                rw [hss, hr₂]
                exact List.takeWhile_append_dropWhile isSep r₁
              have e3 : share ++ r₃ = r₂ := by
                rw [hshare, hr₃]
                exact List.takeWhile_append_dropWhile _ r₂
              conv_lhs => rw [← e1, ← e2, ← e3]
            · intro c hc
              rw [hhost] at hc
              have := List.mem_takeWhile_imp hc
              simpa using this
            · intro c hc
              rw [hss] at hc
              exact List.mem_takeWhile_imp hc
            · intro c hc
              rw [hshare] at hc
              have := List.mem_takeWhile_imp hc
              simpa using this
            · cases hr3 : r₃ with
              | nil => exact Or.inl rfl
              | cons c t =>
                refine Or.inr ⟨c, t, rfl, ?_⟩
                have := dropWhile_head_false (fun c => !isSep c) r₂ c t (hr₃ ▸ hr3)
                simpa using this
          · rw [if_neg hg] at h
            exact absurd h (by simp)
        · exact absurd h (by simp [matchDevice, hlc, hsep])

theorem splitG2_nil (g1 : Str) : splitG2 g1 [] = (g1, [], []) := rfl

theorem splitG2_cons_sep (g1 : Str) (c : Char) (r : Str) (h : isSep c = true) :
    splitG2 g1 (c :: r) = (g1, [c], r) := by
  simp [splitG2, h]

theorem splitG2_cons_nonsep (g1 : Str) (c : Char) (r : Str) (h : isSep c = false) :
    splitG2 g1 (c :: r) = (g1, [], c :: r) := by
  simp [splitG2, h]

theorem isSep_cases (c : Char) (h : isSep c = true) : c = '\\' ∨ c = '/' := by
  simp only [isSep, Bool.or_eq_true, beq_iff_eq] at h
  exact h

theorem isSep_ne_colon (c : Char) (h : isSep c = true) : (c == ':') = false := by
  rcases isSep_cases c h with rfl | rfl <;> decide

/-- A device captured from `p` still matches, as the whole device, in
front of any continuation that is empty or starts with a separator. -/
theorem matchDevice_rebuild (p : Str) (dr : Str × Str)
    (hp : matchDevice p = some dr) (v : Str)
    (hv : v = [] ∨ ∃ c t, v = c :: t ∧ isSep c = true) :
    matchDevice (dr.1 ++ v) = some (dr.1, v) := by
  rcases matchDevice_some_inv p dr hp with
    ⟨l, r, _, hl, hdr⟩ |
    ⟨a, b, host, ss, share, rest, _, hdr, ha, hb, hh, hha, hs, hsa, hsh, hsha, _⟩
  · rw [hdr]
    exact matchDevice_letter l v hl
  · rw [hdr]
    show matchDevice ((a :: b :: (host ++ ss ++ share)) ++ v) = _
    have : (a :: b :: (host ++ ss ++ share)) ++ v =
        a :: b :: (host ++ (ss ++ (share ++ v))) := by
      simp [List.append_assoc]
    rw [this]
    exact matchDevice_unc a b host ss share v ha hb hh hha hs hsa hsh hsha hv

/-- No device matches a string of two separators followed by a separator
run and then a separator-free remainder (the UNC alternative fails for
lack of a nonempty host or a nonempty separator run). -/
theorem matchDevice_seps_base (a c : Char) (ha : isSep a = true)
    (hc : isSep c = true) (stuff b : Str)
    (hst : ∀ x ∈ stuff, isSep x = true) (hb : ∀ x ∈ b, isSep x = false) :
    matchDevice (a :: c :: (stuff ++ b)) = none := by
  have hla : isLetter a = false := isSep_not_isLetter a ha
  simp only [matchDevice, hla, Bool.false_and, Bool.false_eq_true, if_false,
    ha, hc, Bool.and_self, if_true]
  cases stuff with
  | nil =>
    have h1 : b.takeWhile (fun c => !isSep c) = b :=
      List.takeWhile_eq_self_iff.mpr (fun c hcm => by simp [hb c hcm])
    have h2 : b.dropWhile (fun c => !isSep c) = [] :=
      List.dropWhile_eq_nil_iff.mpr (fun c hcm => by simp [hb c hcm])
    simp [h1, h2]
  | cons s st =>
    have hs : isSep s = true := hst s (by simp)
    have h1 : ((s :: st) ++ b).takeWhile (fun c => !isSep c) = [] := by
      simp [List.takeWhile_cons, hs]
    simp [h1, hs]

/-- `statPath` of a captured device followed by a separator and a tail. -/
theorem statPath_dev_sep (p : Str) (dr : Str × Str)
    (hp : matchDevice p = some dr) (c : Char) (hc : isSep c = true) (w : Str) :
    statPath (dr.1 ++ c :: w) =
      { device := dr.1, tail := w,
        isUnc := !dr.1.isEmpty && !(dr.1.get? 1 == some ':'),
        isAbsolute := true } := by
  have hmd := matchDevice_rebuild p dr hp (c :: w) (Or.inr ⟨c, w, rfl, hc⟩)
  simp only [statPath, splitDevice_eq_some _ _ hmd, splitG2_cons_sep _ c w hc]
  simp

/-- `statPath` of a string with no device match whose head is a
separator. -/
theorem statPath_none_sep (c : Char) (hc : isSep c = true) (w : Str)
    (hm : matchDevice (c :: w) = none) :
    statPath (c :: w) =
      { device := [], tail := w, isUnc := false, isAbsolute := true } := by
  simp only [statPath, splitDevice_eq_none _ hm, splitG2_cons_sep _ c w hc]
  simp

/-- `statPath` of a string with no device match that does not start with
a separator. -/
theorem statPath_none_nonsep (s : Str) (hm : matchDevice s = none)
    (hh : s = [] ∨ ∃ c t, s = c :: t ∧ isSep c = false) :
    statPath s =
      { device := [], tail := s, isUnc := false, isAbsolute := false } := by
  rcases hh with rfl | ⟨c, t, rfl, hc⟩
  · rfl
  · simp only [statPath, splitDevice_eq_none _ hm, splitG2_cons_nonsep _ c t hc]
    simp

/-- A maximal nonempty separator run at the head of a split contributes
one leading empty chunk. -/
theorem splitRuns_sep_lead (sep : Char → Bool) (rr b : Str) (hrr : rr ≠ [])
    (hrra : ∀ c ∈ rr, sep c = true)
    (hb : b = [] ∨ ∃ c t, b = c :: t ∧ sep c = false) :
    splitRuns sep (rr ++ b) = [] :: splitRuns sep b := by
  obtain ⟨c, rr₂, rfl⟩ : ∃ c t, rr = c :: t := by
    cases rr with
    | nil => exact absurd rfl hrr
    | cons c t => exact ⟨c, t, rfl⟩
  have hc : sep c = true := hrra c (by simp)
  show splitRunsAux sep false (c :: (rr₂ ++ b)) = [] :: splitRunsAux sep false b
  simp only [splitRunsAux, hc, if_true, Bool.false_eq_true, if_false]
  rw [splitRunsAux_true_skip sep rr₂ (fun d hd => hrra d (List.mem_cons_of_mem c hd)) b,
    splitRunsAux_true_eq_false sep b hb]

/-- The normalized chunk list of an all-separator tail is empty. -/
theorem normalizeArray_splitRuns_sep (X : Str) (hX : ∀ c ∈ X, isSep c = true)
    (al : Bool) : normalizeArray (splitRuns isSep X) al = [] := by
  cases hXe : X with
  | nil =>
    show normalizeArray ([] :: []) al = []
    rw [normalizeArray_cons_nil]
    rfl
  | cons c t =>
    have : splitRuns isSep X = [] :: splitRuns isSep [] := by
      have := splitRuns_sep_lead isSep X [] (by simp [hXe]) (hXe ▸ hX) (Or.inl rfl)
      simpa using this
    rw [← hXe, this]
    rw [normalizeArray_cons_nil]
    show normalizeArray ([] :: []) al = []
    rw [normalizeArray_cons_nil]
    rfl

/-- `normalize` of any path whose `statPath` has an all-separator tail
and an absolute root. -/
theorem win32Normalize_stat_sep (q dev X : Str) (unc : Bool)
    (hst : statPath q = { device := dev, tail := X, isUnc := unc,
                          isAbsolute := true })
    (hX : ∀ c ∈ X, isSep c = true) :
    win32Normalize q = (if unc then normalizeUNCRoot dev else dev) ++ ['\\'] := by
  simp only [win32Normalize, hst]
  rw [normalizeArray_splitRuns_sep X hX]
  simp [joinSep]

/-- `normalize` is determined by the fields of `statPath` up to the
normalized chunk list and the trailing-separator flag. -/
theorem win32Normalize_congr (p q : Str)
    (hdev : (statPath p).device = (statPath q).device)
    (hunc : (statPath p).isUnc = (statPath q).isUnc)
    (habs : (statPath p).isAbsolute = (statPath q).isAbsolute)
    (harr : normalizeArray (splitRuns isSep (statPath p).tail)
        (!(statPath p).isAbsolute) =
      normalizeArray (splitRuns isSep (statPath q).tail)
        (!(statPath q).isAbsolute))
    (htr : endsWithSep (statPath p).tail = endsWithSep (statPath q).tail) :
    win32Normalize p = win32Normalize q := by
  simp only [win32Normalize]
  rw [harr, habs, htr, hdev, hunc]

theorem endsWithSep_append (x b : Str) (hb : b ≠ []) :
    endsWithSep (x ++ b) = endsWithSep b := by
  simp only [endsWithSep, List.getLast?_append_of_ne_nil x hb]

theorem normTail_swap (z rr R b : Str)
    (hz : z = [] ∨ ∃ c, z.getLast? = some c ∧ isSep c = false)
    (hrr : rr ≠ []) (hrra : ∀ c ∈ rr, isSep c = true)
    (hR : R ≠ []) (hRa : ∀ c ∈ R, isSep c = true) (al : Bool) :
    normalizeArray (splitRuns isSep (z ++ rr ++ b)) al =
      normalizeArray (splitRuns isSep (z ++ R ++ b)) al := by
  have h := splitRuns_swap isSep rr R hrr hrra hR hRa b z hz false
  show normalizeArray (splitRunsAux isSep false (z ++ rr ++ b)) al = _
  rw [h]
  rfl

theorem normTail_drop (rr b : Str) (hrr : rr ≠ [])
    (hrra : ∀ c ∈ rr, isSep c = true)
    (hb : b = [] ∨ ∃ c t, b = c :: t ∧ isSep c = false) (al : Bool) :
    normalizeArray (splitRuns isSep (rr ++ b)) al =
      normalizeArray (splitRuns isSep b) al := by
  rw [splitRuns_sep_lead isSep rr b hrr hrra hb, normalizeArray_cons_nil]

/-- Decomposition of a list at its maximal trailing run of characters
satisfying `q`. -/
theorem trailing_run_decomp (q : Char → Bool) (d : Str) :
    d = (d.reverse.dropWhile q).reverse ++ (d.reverse.takeWhile q).reverse ∧
    (∀ c ∈ (d.reverse.takeWhile q).reverse, q c = true) ∧
    ((d.reverse.dropWhile q).reverse = [] ∨
      ∃ c, (d.reverse.dropWhile q).reverse.getLast? = some c ∧ q c = false) := by
  refine ⟨?_, ?_, ?_⟩
  · calc d = d.reverse.reverse := d.reverse_reverse.symm
    _ = (d.reverse.takeWhile q ++ d.reverse.dropWhile q).reverse := by
        conv_lhs => rw [← List.takeWhile_append_dropWhile q d.reverse]
    _ = (d.reverse.dropWhile q).reverse ++ (d.reverse.takeWhile q).reverse := by
        rw [List.reverse_append]
  · intro c hc
    rw [List.mem_reverse] at hc
    exact List.mem_takeWhile_imp hc
  · rcases hd : d.reverse.dropWhile q with _ | ⟨c, r⟩
    · left; simp [hd]
    · right
      refine ⟨c, ?_, dropWhile_head_false q d.reverse c r hd⟩
      rw [List.getLast?_reverse]
      rfl

theorem trailing_run_ne_nil (q : Char → Bool) (d : Str) (c : Char)
    (hc : d.getLast? = some c) (hq : q c = true) :
    (d.reverse.takeWhile q).reverse ≠ [] := by
  cases hrev : d.reverse with
  | nil =>
    have : d = [] := by simpa using congrArg List.reverse hrev
    rw [this] at hc
    simp at hc
  | cons e r =>
    have he : e = c := by
      have h1 : d.reverse.head? = some c := by rw [List.head?_reverse]; exact hc
      rw [hrev] at h1
      simpa using h1
    subst he
    simp [hrev, List.takeWhile_cons, hq]

theorem not_sep_ne_backslash (c : Char) (h : isSep c = false) :
    (c == '\\') = false := by
  simp only [isSep, Bool.or_eq_false_iff] at h
  exact h.1

theorem getLast?_of_ne_nil {α : Type} (l : List α) (h : l ≠ []) :
    ∃ c, l.getLast? = some c := by
  cases hgl : l.getLast? with
  | none => exact absurd (List.getLast?_eq_none_iff.mp hgl) h
  | some c => exact ⟨c, rfl⟩

/-- Combined tail reduction: replacing the separator run between `z` and
`b` by another all-separator string (possibly empty when `z` is empty)
does not change the normalized chunk list. -/
theorem normTail_reduce (z rr R b : Str)
    (hz : z = [] ∨ ∃ c, z.getLast? = some c ∧ isSep c = false)
    (hrr : rr ≠ []) (hrra : ∀ c ∈ rr, isSep c = true)
    (hRa : ∀ c ∈ R, isSep c = true) (hzR : R = [] → z = [])
    (hb : b = [] ∨ ∃ c t0, b = c :: t0 ∧ isSep c = false) (al : Bool) :
    normalizeArray (splitRuns isSep (z ++ R ++ b)) al =
      normalizeArray (splitRuns isSep (z ++ rr ++ b)) al := by
  cases hR : R with
  | nil =>
    have hznil : z = [] := hzR hR
    subst hznil
    simp only [List.nil_append]
    exact (normTail_drop rr b hrr hrra hb al).symm
  | cons x xs =>
    rw [← hR]
    exact normTail_swap z R rr b hz (by rw [hR]; simp) hRa hrr hrra al

theorem endsWithSep_zRb (z R b : Str) (hb : b ≠ []) :
    endsWithSep (z ++ R ++ b) = endsWithSep b :=
  endsWithSep_append (z ++ R) b hb

/-- Normalization agrees on two paths whose `statPath` records agree up
to tails with equal normalized chunk lists and trailing flags. -/
theorem win32_congr_st (f p dev : Str) (ub ab : Bool) (u t : Str)
    (hstf : statPath f =
      { device := dev, tail := u, isUnc := ub, isAbsolute := ab })
    (hstp : statPath p =
      { device := dev, tail := t, isUnc := ub, isAbsolute := ab })
    (harr : normalizeArray (splitRuns isSep u) (!ab) =
      normalizeArray (splitRuns isSep t) (!ab))
    (htr : endsWithSep u = endsWithSep t) :
    win32Normalize f = win32Normalize p := by
  apply win32Normalize_congr
  · rw [hstf, hstp]
  · rw [hstf, hstp]
  · rw [hstf, hstp]
  · rw [hstf, hstp]
    exact harr
  · rw [hstf, hstp]
    exact htr

/-- The formatted output of `parse` in terms of the captured groups. -/
theorem win32Format_parse (p : Str) :
    win32Format (win32Parse p) =
      (let g := splitDevice p
       let d := (splitTailParts isSep win32ExtOk g.2.2).1
       let b := (splitTailParts isSep win32ExtOk g.2.2).2.1
       let dir := g.1 ++ g.2.1 ++ d.dropLast
       if dir.isEmpty then b
       else if dir.getLast? == some '\\' then dir ++ b
       else dir ++ '\\' :: b) := rfl

/-- Bundled facts about the base split of a tail that does not end in a
separator. -/
theorem tail_setup (t : Str) (hne : t ≠ [])
    (hlast : ∀ x, t.getLast? = some x → isSep x = false) :
    ∃ d b, (splitTailParts isSep win32ExtOk t).1 = d ∧
      (splitTailParts isSep win32ExtOk t).2.1 = b ∧
      t = d ++ b ∧ b ≠ [] ∧ (∀ c ∈ b, isSep c = false) ∧
      (d = [] ∨ ∃ c, d.getLast? = some c ∧ isSep c = true) := by
  have hd := splitTail_decomp isSep win32ExtOk t
  have hn := splitTail_no_trailing isSep win32ExtOk t hlast
  refine ⟨(splitTailParts isSep win32ExtOk t).1,
    (splitTailParts isSep win32ExtOk t).2.1, rfl, rfl, ?_, hn.2 hne,
    hd.2.2.1, hd.2.2.2⟩
  have h1 := hd.1
  rw [hn.1] at h1
  simpa using h1

/-- Bundled facts about the maximal trailing separator run of a `dir`
group ending in a separator. -/
theorem dir_run_setup (d : Str) (c0 : Char) (hlast : d.getLast? = some c0)
    (hsep : isSep c0 = true) :
    ∃ z rr, d = z ++ rr ∧ rr ≠ [] ∧ (∀ c ∈ rr, isSep c = true) ∧
      (z = [] ∨ ∃ c, z.getLast? = some c ∧ isSep c = false) := by
  have h := trailing_run_decomp isSep d
  exact ⟨(d.reverse.dropWhile isSep).reverse, (d.reverse.takeWhile isSep).reverse,
    h.1, trailing_run_ne_nil isSep d c0 hlast hsep, h.2.1, h.2.2⟩

/-- Round trip for a path with a captured device followed by a separator
and a well-behaved tail. -/
theorem win32_rt_dev_sep (p : Str) (dr : Str × Str) (hp : matchDevice p = some dr)
    (c : Char) (hc : isSep c = true) (t : Str) (hdr2 : dr.2 = c :: t)
    (htne : t ≠ []) (htlast : ∀ x, t.getLast? = some x → isSep x = false) :
    win32Normalize (win32Format (win32Parse p)) = win32Normalize p := by
  obtain ⟨d, b, hd0, hb0, htdb, hbne, hbfree, hdend⟩ := tail_setup t htne htlast
  obtain ⟨b0, bs, hbcons⟩ : ∃ b0 bs, b = b0 :: bs := by
    cases b with
    | nil => exact absurd rfl hbne
    | cons b0 bs => exact ⟨b0, bs, rfl⟩
  have hbhead : b = [] ∨ ∃ x t0, b = x :: t0 ∧ isSep x = false :=
    Or.inr ⟨b0, bs, hbcons, hbfree b0 (by rw [hbcons]; simp)⟩
  have hpeq : p = dr.1 ++ c :: t := by
    have h := matchDevice_append p dr hp
    rw [hdr2] at h
    exact h
  have hsd : splitDevice p = (dr.1, [c], t) := by
    rw [splitDevice_eq_some p dr hp, hdr2, splitG2_cons_sep dr.1 c t hc]
  have hstp : statPath p =
      { device := dr.1, tail := t,
        isUnc := !dr.1.isEmpty && !(dr.1.get? 1 == some ':'),
        isAbsolute := true } := by
    simp only [statPath, hsd]
    simp
  have hfmt : win32Format (win32Parse p) =
      (if (dr.1 ++ [c] ++ d.dropLast).isEmpty then b
       else if (dr.1 ++ [c] ++ d.dropLast).getLast? == some '\\' then
         dr.1 ++ [c] ++ d.dropLast ++ b
       else dr.1 ++ [c] ++ d.dropLast ++ '\\' :: b) := by
    rw [win32Format_parse]
    simp only [hsd, hd0, hb0]
  have hdirE : (dr.1 ++ [c] ++ d.dropLast).isEmpty = false := by
    simp
  rcases hdend with hdnil | ⟨dl, hdl, hdlsep⟩
  · -- T1, empty dir group: the tail is exactly the base
    subst hdnil
    have htb : t = b := by simpa using htdb
    have hgl : (dr.1 ++ [c] ++ ([] : Str).dropLast).getLast? = some c := by
      simp
    rcases isSep_cases c hc with rfl | rfl
    · -- the separator is a backslash: format returns the path unchanged
      have hf : win32Format (win32Parse p) = p := by
        rw [hfmt, hpeq, htb]
        simp only [hdirE, Bool.false_eq_true, if_false, hgl]
        simp
      rw [hf]
    · -- a forward slash: format inserts a backslash after it
      have hf : win32Format (win32Parse p) = dr.1 ++ '/' :: ('\\' :: b) := by
        rw [hfmt]
        simp only [hdirE, Bool.false_eq_true, if_false, hgl]
        have hcond : ((some '/' : Option Char) == some '\\') = false := by decide
        simp only [hcond, Bool.false_eq_true, if_false]
        simp
      have hstf : statPath (win32Format (win32Parse p)) =
          { device := dr.1, tail := '\\' :: b,
            isUnc := !dr.1.isEmpty && !(dr.1.get? 1 == some ':'),
            isAbsolute := true } := by
        rw [hf]
        exact statPath_dev_sep p dr hp '/' (by decide) ('\\' :: b)
      refine win32_congr_st _ p dr.1 _ true ('\\' :: b) t hstf hstp ?_ ?_
      · rw [htb]
        exact normTail_drop ['\\'] b (by simp) (by intro x hx; simp at hx; rw [hx]; rfl)
          hbhead false
      · rw [htb]
        exact endsWithSep_append ['\\'] b hbne
  · -- T1, nonempty dir group ending in a separator
    obtain ⟨z, rr, hdzr, hrrne, hrrsep, hzend⟩ := dir_run_setup d dl hdl hdlsep
    have hdropd : d.dropLast = z ++ rr.dropLast := by
      rw [hdzr]
      exact List.dropLast_append_of_ne_nil z hrrne
    have hdlsep' : ∀ x ∈ rr.dropLast, isSep x = true :=
      fun x hx => hrrsep x (List.mem_of_mem_dropLast hx)
    have ht2 : t = z ++ rr ++ b := by rw [htdb, hdzr]
    by_cases hdrop : rr.dropLast = []
    · -- the trailing run has length one
      rcases hzend with hznil | ⟨zl, hzl, hzlsep⟩
      · -- dir is a pure separator run of length one
        subst hznil
        have hgl : (dr.1 ++ [c] ++ d.dropLast).getLast? = some c := by
          rw [hdropd, hdrop]
          simp
        rcases isSep_cases c hc with rfl | rfl
        · have hf : win32Format (win32Parse p) = dr.1 ++ '\\' :: b := by
            rw [hfmt]
            simp only [hdirE, Bool.false_eq_true, if_false, hgl]
            have hcond : ((some '\\' : Option Char) == some '\\') = true := rfl
            simp only [hcond, if_true, hdropd, hdrop]
            simp
          have hstf : statPath (win32Format (win32Parse p)) =
              { device := dr.1, tail := b,
                isUnc := !dr.1.isEmpty && !(dr.1.get? 1 == some ':'),
                isAbsolute := true } := by
            rw [hf]
            exact statPath_dev_sep p dr hp '\\' (by decide) b
          refine win32_congr_st _ p dr.1 _ true b t hstf hstp ?_ ?_
          · rw [ht2]
            exact normTail_reduce [] rr [] b (Or.inl rfl) hrrne hrrsep
              (by intro x hx; simp at hx) (fun _ => rfl) hbhead false
          · rw [ht2]
            exact (endsWithSep_zRb [] rr b hbne).symm
        · have hf : win32Format (win32Parse p) = dr.1 ++ '/' :: ('\\' :: b) := by
            rw [hfmt]
            simp only [hdirE, Bool.false_eq_true, if_false, hgl]
            have hcond : ((some '/' : Option Char) == some '\\') = false := by decide
            simp only [hcond, Bool.false_eq_true, if_false, hdropd, hdrop]
            simp
          have hstf : statPath (win32Format (win32Parse p)) =
              { device := dr.1, tail := '\\' :: b,
                isUnc := !dr.1.isEmpty && !(dr.1.get? 1 == some ':'),
                isAbsolute := true } := by
            rw [hf]
            exact statPath_dev_sep p dr hp '/' (by decide) ('\\' :: b)
          refine win32_congr_st _ p dr.1 _ true ('\\' :: b) t hstf hstp ?_ ?_
          · rw [ht2]
            exact normTail_reduce [] rr ['\\'] b (Or.inl rfl) hrrne hrrsep
              (by intro x hx; simp at hx; rw [hx]; rfl)
              (fun h => absurd h (by simp)) hbhead false
          · rw [ht2]
            rw [endsWithSep_zRb [] rr b hbne]
            exact endsWithSep_append ['\\'] b hbne
      · -- dir keeps a nonempty prefix ending in a non-separator
        have hzne : z ≠ [] := by
          intro h
          rw [h] at hzl
          simp at hzl
        have hgl : (dr.1 ++ [c] ++ d.dropLast).getLast? = some zl := by
          rw [hdropd, hdrop, List.append_nil,
            List.getLast?_append_of_ne_nil (dr.1 ++ [c]) hzne]
          exact hzl
        have hf : win32Format (win32Parse p) = dr.1 ++ c :: (z ++ '\\' :: b) := by
          rw [hfmt]
          simp only [hdirE, Bool.false_eq_true, if_false, hgl]
          have hcond : ((some zl : Option Char) == some '\\') = false :=
            not_sep_ne_backslash zl hzlsep
          simp only [hcond, Bool.false_eq_true, if_false, hdropd, hdrop]
          simp
        have hstf : statPath (win32Format (win32Parse p)) =
            { device := dr.1, tail := z ++ '\\' :: b,
              isUnc := !dr.1.isEmpty && !(dr.1.get? 1 == some ':'),
              isAbsolute := true } := by
          rw [hf]
          exact statPath_dev_sep p dr hp c hc (z ++ '\\' :: b)
        have hzb : z ++ '\\' :: b = z ++ ['\\'] ++ b := by simp
        refine win32_congr_st _ p dr.1 _ true (z ++ '\\' :: b) t hstf hstp ?_ ?_
        · rw [ht2, hzb]
          exact normTail_reduce z rr ['\\'] b (Or.inr ⟨zl, hzl, hzlsep⟩) hrrne
            hrrsep (by intro x hx; simp at hx; rw [hx]; rfl)
            (fun h => absurd h (by simp)) hbhead false
        · rw [ht2, hzb, endsWithSep_zRb z ['\\'] b hbne,
            endsWithSep_zRb z rr b hbne]
    · -- the trailing run keeps at least one separator after dropLast
      obtain ⟨w, hwl⟩ := getLast?_of_ne_nil rr.dropLast hdrop
      have hwsep : isSep w = true := hdlsep' w (getLast?_mem _ w hwl)
      have hzdne : z ++ rr.dropLast ≠ [] := by
        intro h
        rcases List.append_eq_nil.mp h with ⟨_, h2⟩
        exact hdrop h2
      have hgl : (dr.1 ++ [c] ++ d.dropLast).getLast? = some w := by
        rw [hdropd, List.getLast?_append_of_ne_nil (dr.1 ++ [c]) hzdne,
          List.getLast?_append_of_ne_nil z hdrop]
        exact hwl
      rcases isSep_cases w hwsep with rfl | rfl
      · have hf : win32Format (win32Parse p) =
            dr.1 ++ c :: (z ++ rr.dropLast ++ b) := by
          rw [hfmt]
          simp only [hdirE, Bool.false_eq_true, if_false, hgl]
          have hcond : ((some '\\' : Option Char) == some '\\') = true := rfl
          simp only [hcond, if_true, hdropd]
          simp [List.append_assoc]
        have hstf : statPath (win32Format (win32Parse p)) =
            { device := dr.1, tail := z ++ rr.dropLast ++ b,
              isUnc := !dr.1.isEmpty && !(dr.1.get? 1 == some ':'),
              isAbsolute := true } := by
          rw [hf]
          exact statPath_dev_sep p dr hp c hc (z ++ rr.dropLast ++ b)
        refine win32_congr_st _ p dr.1 _ true (z ++ rr.dropLast ++ b) t hstf
          hstp ?_ ?_
        · rw [ht2]
          exact normTail_reduce z rr rr.dropLast b hzend hrrne hrrsep hdlsep'
            (fun h => absurd h hdrop) hbhead false
        · rw [ht2, endsWithSep_zRb z rr.dropLast b hbne,
            endsWithSep_zRb z rr b hbne]
      · have hf : win32Format (win32Parse p) =
            dr.1 ++ c :: (z ++ (rr.dropLast ++ ['\\']) ++ b) := by
          rw [hfmt]
          simp only [hdirE, Bool.false_eq_true, if_false, hgl]
          have hcond : ((some '/' : Option Char) == some '\\') = false := by decide
          simp only [hcond, Bool.false_eq_true, if_false, hdropd]
          simp [List.append_assoc]
        have hstf : statPath (win32Format (win32Parse p)) =
            { device := dr.1, tail := z ++ (rr.dropLast ++ ['\\']) ++ b,
              isUnc := !dr.1.isEmpty && !(dr.1.get? 1 == some ':'),
              isAbsolute := true } := by
          rw [hf]
          exact statPath_dev_sep p dr hp c hc (z ++ (rr.dropLast ++ ['\\']) ++ b)
        have hRsep : ∀ x ∈ rr.dropLast ++ ['\\'], isSep x = true := by
          intro x hx
          rcases List.mem_append.mp hx with h | h
          · exact hdlsep' x h
          · simp at h
            rw [h]
            rfl
        refine win32_congr_st _ p dr.1 _ true (z ++ (rr.dropLast ++ ['\\']) ++ b)
          t hstf hstp ?_ ?_
        · rw [ht2]
          exact normTail_reduce z rr (rr.dropLast ++ ['\\']) b hzend hrrne hrrsep
            hRsep (fun h => absurd h (by simp)) hbhead false
        · rw [ht2, endsWithSep_zRb z (rr.dropLast ++ ['\\']) b hbne,
            endsWithSep_zRb z rr b hbne]

/-- The UNC alternative fails when nothing follows the two leading
separators but more separators (empty host). -/
theorem matchDevice_host_nil (a c : Char) (ha : isSep a = true)
    (hc : isSep c = true) (r : Str)
    (hr : r = [] ∨ ∃ x xs, r = x :: xs ∧ isSep x = true) :
    matchDevice (a :: c :: r) = none := by
  have hla : isLetter a = false := isSep_not_isLetter a ha
  simp only [matchDevice, hla, Bool.false_and, Bool.false_eq_true, if_false,
    ha, hc, Bool.and_self, if_true]
  have h1 : r.takeWhile (fun c => !isSep c) = [] := by
    refine takeWhile_eq_nil_of_head _ r ?_
    rcases hr with rfl | ⟨x, xs, rfl, hx⟩
    · exact Or.inl rfl
    · exact Or.inr ⟨x, xs, rfl, by simp [hx]⟩
  simp [h1]

/-- When two separators are followed by a nonseparator run that is
eventually followed again by separators and nonseparators, the UNC
alternative succeeds (used to derive contradictions with a failed
match). -/
theorem matchDevice_inner_some (a z0 : Char) (ha : isSep a = true)
    (hz0 : isSep z0 = true) (y0 : Char) (ys : Str) (hy0 : isSep y0 = false)
    (hzl : ∃ w, (y0 :: ys).getLast? = some w ∧ isSep w = false)
    (Q b : Str) (hQne : Q ≠ []) (hQsep : ∀ x ∈ Q, isSep x = true)
    (hbne : b ≠ []) (hbfree : ∀ x ∈ b, isSep x = false) :
    ∃ dr, matchDevice (a :: z0 :: ((y0 :: ys) ++ Q ++ b)) = some dr := by
  have hn : (y0 :: ys).takeWhile (fun c => !isSep c) ≠ [] := by
    simp [List.takeWhile_cons, hy0]
  have hsplit1 : y0 :: ys =
      (y0 :: ys).takeWhile (fun c => !isSep c) ++
      (y0 :: ys).dropWhile (fun c => !isSep c) :=
    (List.takeWhile_append_dropWhile _ _).symm
  cases hrest1 : (y0 :: ys).dropWhile (fun c => !isSep c) with
  | nil =>
    -- the run before `Q` is separator-free: the match is host ++ Q ++ b
    have hzfree : ∀ x ∈ y0 :: ys, isSep x = false := by
      intro x hx
      have : (y0 :: ys).takeWhile (fun c => !isSep c) = y0 :: ys := by
        conv_rhs => rw [hsplit1, hrest1]
        simp
      rw [← this] at hx
      have := List.mem_takeWhile_imp hx
      simpa using this
    have hshape : (y0 :: ys) ++ Q ++ b = (y0 :: ys) ++ (Q ++ (b ++ [])) := by
      simp [List.append_assoc]
    rw [hshape]
    exact ⟨_, matchDevice_unc a z0 (y0 :: ys) Q b [] ha hz0 (by simp) hzfree
      hQne hQsep hbne hbfree (Or.inl rfl)⟩
  | cons s srest =>
    have hssep : isSep s = true := by
      have := dropWhile_head_false (fun c => !isSep c) (y0 :: ys) s srest hrest1
      simpa using this
    have hss1ne : (s :: srest).takeWhile isSep ≠ [] := by
      simp [List.takeWhile_cons, hssep]
    have hsplit2 : s :: srest =
        (s :: srest).takeWhile isSep ++ (s :: srest).dropWhile isSep :=
      (List.takeWhile_append_dropWhile _ _).symm
    cases hrest2 : (s :: srest).dropWhile isSep with
    | nil =>
      -- impossible: the run before `Q` would end in a separator
      exfalso
      have hall : ∀ x ∈ s :: srest, isSep x = true := by
        intro x hx
        have heq : (s :: srest).takeWhile isSep = s :: srest := by
          conv_rhs => rw [hsplit2, hrest2]
          simp
        rw [← heq] at hx
        exact List.mem_takeWhile_imp hx
      rcases hzl with ⟨w, hw, hwf⟩
      have hwl : (y0 :: ys).getLast? = (s :: srest).getLast? := by
        conv_lhs => rw [hsplit1, hrest1]
        exact List.getLast?_append_of_ne_nil _ (by simp)
      obtain ⟨w', hw'⟩ := getLast?_of_ne_nil (s :: srest) (by simp)
      have : w = w' := by
        rw [hwl, hw'] at hw
        exact (Option.some_inj.mp hw).symm
      subst this
      rw [hall w (getLast?_mem _ w hw')] at hwf
      simp at hwf
    | cons m0 ms =>
      have hm0 : isSep m0 = false := by
        have := dropWhile_head_false isSep (s :: srest) m0 ms hrest2
        exact this
      have hshare : (m0 :: ms).takeWhile (fun c => !isSep c) ≠ [] := by
        simp [List.takeWhile_cons, hm0]
      have hsplit3 : m0 :: ms =
          (m0 :: ms).takeWhile (fun c => !isSep c) ++
          (m0 :: ms).dropWhile (fun c => !isSep c) :=
        (List.takeWhile_append_dropWhile _ _).symm
      have hresthead : (m0 :: ms).dropWhile (fun c => !isSep c) ++ (Q ++ b) = [] ∨
          ∃ x xs, (m0 :: ms).dropWhile (fun c => !isSep c) ++ (Q ++ b) = x :: xs ∧
            isSep x = true := by
        cases hrest3 : (m0 :: ms).dropWhile (fun c => !isSep c) with
        | nil =>
          obtain ⟨q0, qs, hq⟩ : ∃ q0 qs, Q = q0 :: qs := by
            cases Q with
            | nil => exact absurd rfl hQne
            | cons q0 qs => exact ⟨q0, qs, rfl⟩
          exact Or.inr ⟨q0, qs ++ b, by simp [hq], hQsep q0 (by simp [hq])⟩
        | cons x xs =>
          have hx : isSep x = true := by
            have := dropWhile_head_false (fun c => !isSep c) (m0 :: ms) x xs hrest3
            simpa using this
          exact Or.inr ⟨x, xs ++ (Q ++ b), by simp, hx⟩
      have hfreeH : ∀ x ∈ (y0 :: ys).takeWhile (fun c => !isSep c),
          isSep x = false := by
        intro x hx
        have := List.mem_takeWhile_imp hx
        simpa using this
      have hsepS : ∀ x ∈ (s :: srest).takeWhile isSep, isSep x = true :=
        fun x hx => List.mem_takeWhile_imp hx
      have hfreeSh : ∀ x ∈ (m0 :: ms).takeWhile (fun c => !isSep c),
          isSep x = false := by
        intro x hx
        have := List.mem_takeWhile_imp hx
        simpa using this
      have hshape : (y0 :: ys) ++ Q ++ b =
          (y0 :: ys).takeWhile (fun c => !isSep c) ++
          ((s :: srest).takeWhile isSep ++
            ((m0 :: ms).takeWhile (fun c => !isSep c) ++
              ((m0 :: ms).dropWhile (fun c => !isSep c) ++ (Q ++ b)))) := by
        conv_lhs => rw [hsplit1, hrest1, hsplit2, hrest2, hsplit3]
        simp only [List.append_assoc]
      rw [hshape]
      exact ⟨_, matchDevice_unc a z0 _ _ _ _ ha hz0 hn hfreeH hss1ne hsepS
        hshare hfreeSh hresthead⟩

/-- Swapping the final separator run of the directory part does not
change normalization: no-device paths starting with a separator. -/
theorem win32_rt_nodev_sep_core (c : Char) (hc : isSep c = true)
    (z rr R b : Str) (hm : matchDevice (c :: (z ++ rr ++ b)) = none)
    (hrrne : rr ≠ []) (hrrsep : ∀ x ∈ rr, isSep x = true)
    (hRsep : ∀ x ∈ R, isSep x = true) (hRz : R = [] → z = [])
    (hzend : z = [] ∨ ∃ w, z.getLast? = some w ∧ isSep w = false)
    (hbne : b ≠ []) (hbfree : ∀ x ∈ b, isSep x = false) :
    win32Normalize (c :: (z ++ R ++ b)) = win32Normalize (c :: (z ++ rr ++ b)) := by
  obtain ⟨b0, bs, hbcons⟩ : ∃ b0 bs, b = b0 :: bs := by
    cases b with
    | nil => exact absurd rfl hbne
    | cons b0 bs => exact ⟨b0, bs, rfl⟩
  have hbhead : b = [] ∨ ∃ x t0, b = x :: t0 ∧ isSep x = false :=
    Or.inr ⟨b0, bs, hbcons, hbfree b0 (by rw [hbcons]; simp)⟩
  have hmf : matchDevice (c :: (z ++ R ++ b)) = none := by
    cases z with
    | nil =>
      cases hR : R with
      | nil =>
        have h1 : (isLetter c && (b0 == ':')) = false := by
          simp [isSep_not_isLetter c hc]
        have h2 : (isSep c && isSep b0) = false := by
          simp [hbfree b0 (by rw [hbcons]; simp)]
        rw [hbcons]
        exact matchDevice_none_of c b0 bs h1 h2
      | cons R0 Rs =>
        have hR0 : isSep R0 = true := hRsep R0 (by simp [hR])
        have hRs : ∀ x ∈ Rs, isSep x = true :=
          fun x hx => hRsep x (by simp [hR, hx])
        exact matchDevice_seps_base c R0 hc hR0 Rs b hRs hbfree
    | cons z0 z'' =>
      by_cases hz0 : isSep z0 = true
      · cases z'' with
        | nil =>
          rcases hzend with h | ⟨w, hw, hwf⟩
          · simp at h
          · have : w = z0 := by
              have := hw
              simp at this
              exact this.symm
            rw [this, hz0] at hwf
            simp at hwf
        | cons y0 ys =>
          by_cases hy0 : isSep y0 = true
          · exact matchDevice_host_nil c z0 hc hz0 (((y0 :: ys) ++ R) ++ b)
              (Or.inr ⟨y0, (ys ++ R) ++ b, by simp, hy0⟩)
          · exfalso
            have hzl : ∃ w, (y0 :: ys).getLast? = some w ∧ isSep w = false := by
              rcases hzend with h | ⟨w, hw, hwf⟩
              · simp at h
              · rw [List.getLast?_cons_cons] at hw
                exact ⟨w, hw, hwf⟩
            obtain ⟨dr, hsome⟩ := matchDevice_inner_some c z0 hc hz0 y0 ys
              (by simpa using hy0) hzl rr b hrrne hrrsep hbne hbfree
            have h2 : matchDevice (c :: ((z0 :: y0 :: ys) ++ rr ++ b)) =
                some dr := hsome
            rw [hm] at h2
            simp at h2
      · have hlet : (isLetter c && (z0 == ':')) = false := by
          simp [isSep_not_isLetter c hc]
        have h2 : (isSep c && isSep z0) = false := by simp [hz0]
        exact matchDevice_none_of c z0 ((z'' ++ R) ++ b) hlet h2
  have hstf := statPath_none_sep c hc (z ++ R ++ b) hmf
  have hstp := statPath_none_sep c hc (z ++ rr ++ b) hm
  refine win32_congr_st _ _ [] false true _ _ hstf hstp ?_ ?_
  · exact normTail_reduce z rr R b hzend hrrne hrrsep hRsep hRz hbhead false
  · rw [endsWithSep_zRb z R b hbne, endsWithSep_zRb z rr b hbne]

/-- Swapping the final separator run of the directory part does not
change normalization: no-device paths starting with a non-separator. -/
theorem win32_rt_nodev_nonsep_core (z rr R b : Str)
    (hm : matchDevice (z ++ rr ++ b) = none)
    (hz0 : ∃ c cs, z = c :: cs ∧ isSep c = false)
    (hzl : ∃ w, z.getLast? = some w ∧ isSep w = false)
    (hrrne : rr ≠ []) (hrrsep : ∀ x ∈ rr, isSep x = true)
    (hRne : R ≠ []) (hRsep : ∀ x ∈ R, isSep x = true)
    (hbne : b ≠ []) (hbfree : ∀ x ∈ b, isSep x = false) :
    win32Normalize (z ++ R ++ b) = win32Normalize (z ++ rr ++ b) := by
  obtain ⟨b0, bs, hbcons⟩ : ∃ b0 bs, b = b0 :: bs := by
    cases b with
    | nil => exact absurd rfl hbne
    | cons b0 bs => exact ⟨b0, bs, rfl⟩
  have hbhead : b = [] ∨ ∃ x t0, b = x :: t0 ∧ isSep x = false :=
    Or.inr ⟨b0, bs, hbcons, hbfree b0 (by rw [hbcons]; simp)⟩
  obtain ⟨z0, z'', hzeq, hz0f⟩ := hz0
  subst hzeq
  have hmf : matchDevice ((z0 :: z'') ++ R ++ b) = none := by
    cases z'' with
    | nil =>
      obtain ⟨R0, Rs, hR⟩ : ∃ R0 Rs, R = R0 :: Rs := by
        cases R with
        | nil => exact absurd rfl hRne
        | cons R0 Rs => exact ⟨R0, Rs, rfl⟩
      have hR0 : isSep R0 = true := hRsep R0 (by simp [hR])
      have h1 : (isLetter z0 && (R0 == ':')) = false := by
        simp [isSep_ne_colon R0 hR0]
      have h2 : (isSep z0 && isSep R0) = false := by simp [hz0f]
      rw [hR]
      exact matchDevice_none_of z0 R0 (Rs ++ b) h1 h2
    | cons y0 ys =>
      have hlet := matchDevice_none_letter z0 y0 ((ys ++ rr) ++ b) hm
      have h2 : (isSep z0 && isSep y0) = false := by simp [hz0f]
      exact matchDevice_none_of z0 y0 ((ys ++ R) ++ b) hlet h2
  have hstf := statPath_none_nonsep ((z0 :: z'') ++ R ++ b) hmf
    (Or.inr ⟨z0, (z'' ++ R) ++ b, by simp, hz0f⟩)
  have hstp := statPath_none_nonsep ((z0 :: z'') ++ rr ++ b) hm
    (Or.inr ⟨z0, (z'' ++ rr) ++ b, by simp, hz0f⟩)
  refine win32_congr_st _ _ [] false false _ _ hstf hstp ?_ ?_
  · exact normTail_reduce (z0 :: z'') rr R b (Or.inr hzl) hrrne hrrsep hRsep
      (fun h => absurd h hRne) hbhead true
  · rw [endsWithSep_zRb (z0 :: z'') R b hbne,
      endsWithSep_zRb (z0 :: z'') rr b hbne]

/-- Round trip for a path with no device whose first character is a
separator. -/
theorem win32_rt_nodev_sep (c : Char) (hc : isSep c = true) (t : Str)
    (hm : matchDevice (c :: t) = none) (htne : t ≠ [])
    (htlast : ∀ x, t.getLast? = some x → isSep x = false) :
    win32Normalize (win32Format (win32Parse (c :: t))) =
      win32Normalize (c :: t) := by
  obtain ⟨d, b, hd0, hb0, htdb, hbne, hbfree, hdend⟩ := tail_setup t htne htlast
  obtain ⟨b0, bs, hbcons⟩ : ∃ b0 bs, b = b0 :: bs := by
    cases b with
    | nil => exact absurd rfl hbne
    | cons b0 bs => exact ⟨b0, bs, rfl⟩
  have hbhead : b = [] ∨ ∃ x t0, b = x :: t0 ∧ isSep x = false :=
    Or.inr ⟨b0, bs, hbcons, hbfree b0 (by rw [hbcons]; simp)⟩
  have hsd : splitDevice (c :: t) = ([], [c], t) := by
    rw [splitDevice_eq_none _ hm, splitG2_cons_sep [] c t hc]
  have hfmt : win32Format (win32Parse (c :: t)) =
      (if (([] : Str) ++ [c] ++ d.dropLast).isEmpty then b
       else if (([] : Str) ++ [c] ++ d.dropLast).getLast? == some '\\' then
         ([] : Str) ++ [c] ++ d.dropLast ++ b
       else ([] : Str) ++ [c] ++ d.dropLast ++ '\\' :: b) := by
    rw [win32Format_parse]
    simp only [hsd, hd0, hb0]
  have hdirE : (([] : Str) ++ [c] ++ d.dropLast).isEmpty = false := by simp
  rcases hdend with hdnil | ⟨dl, hdl, hdlsep⟩
  · -- the tail is exactly the base
    subst hdnil
    have htb : t = b := by simpa using htdb
    have hgl : (([] : Str) ++ [c] ++ ([] : Str).dropLast).getLast? = some c := by
      simp
    rcases isSep_cases c hc with rfl | rfl
    · have hf : win32Format (win32Parse ('\\' :: t)) = '\\' :: t := by
        rw [hfmt, htb]
        simp only [hdirE, Bool.false_eq_true, if_false, hgl]
        have hcond : ((some '\\' : Option Char) == some '\\') = true := rfl
        simp only [hcond, if_true]
        simp
      rw [hf]
    · have hf : win32Format (win32Parse ('/' :: t)) = '/' :: ('\\' :: b) := by
        rw [hfmt]
        simp only [hdirE, Bool.false_eq_true, if_false, hgl]
        have hcond : ((some '/' : Option Char) == some '\\') = false := by decide
        simp only [hcond, Bool.false_eq_true, if_false]
        simp
      rw [hf]
      have hmf : matchDevice ('/' :: ('\\' :: b)) = none :=
        matchDevice_seps_base '/' '\\' (by decide) (by decide) [] b
          (by intro x hx; simp at hx) hbfree
      have hstf := statPath_none_sep '/' (by decide) ('\\' :: b) hmf
      have hstp : statPath ('/' :: t) =
          { device := [], tail := b, isUnc := false, isAbsolute := true } := by
        rw [htb] at hm ⊢
        exact statPath_none_sep '/' (by decide) b hm
      refine win32_congr_st _ _ [] false true _ _ hstf hstp ?_ ?_
      · exact normTail_drop ['\\'] b (by simp)
          (by intro x hx; simp at hx; rw [hx]; rfl) hbhead false
      · exact endsWithSep_append ['\\'] b hbne
  · -- nonempty dir group
    obtain ⟨z, rr, hdzr, hrrne, hrrsep, hzend⟩ := dir_run_setup d dl hdl hdlsep
    have hdropd : d.dropLast = z ++ rr.dropLast := by
      rw [hdzr]
      exact List.dropLast_append_of_ne_nil z hrrne
    have hdlsep' : ∀ x ∈ rr.dropLast, isSep x = true :=
      fun x hx => hrrsep x (List.mem_of_mem_dropLast hx)
    have ht2 : t = z ++ rr ++ b := by rw [htdb, hdzr]
    by_cases hdrop : rr.dropLast = []
    · rcases hzend with hznil | ⟨zl, hzl, hzlsep⟩
      · subst hznil
        have hgl : (([] : Str) ++ [c] ++ d.dropLast).getLast? = some c := by
          rw [hdropd, hdrop]
          simp
        rcases isSep_cases c hc with rfl | rfl
        · have hf : win32Format (win32Parse ('\\' :: t)) =
              '\\' :: (([] : Str) ++ [] ++ b) := by
            rw [hfmt]
            simp only [hdirE, Bool.false_eq_true, if_false, hgl]
            have hcond : ((some '\\' : Option Char) == some '\\') = true := rfl
            simp only [hcond, if_true, hdropd, hdrop]
            simp
          rw [hf, ht2] at *
          rw [ht2]
          exact win32_rt_nodev_sep_core '\\' (by decide) [] rr [] b hm hrrne
            hrrsep (by intro x hx; simp at hx) (fun _ => rfl) (Or.inl rfl)
            hbne hbfree
        · have hf : win32Format (win32Parse ('/' :: t)) =
              '/' :: (([] : Str) ++ ['\\'] ++ b) := by
            rw [hfmt]
            simp only [hdirE, Bool.false_eq_true, if_false, hgl]
            have hcond : ((some '/' : Option Char) == some '\\') = false := by
              decide
            simp only [hcond, Bool.false_eq_true, if_false, hdropd, hdrop]
            simp
          rw [ht2] at hm
          rw [hf, ht2]
          exact win32_rt_nodev_sep_core '/' (by decide) [] rr ['\\'] b hm hrrne
            hrrsep (by intro x hx; simp at hx; rw [hx]; rfl)
            (fun h => absurd h (by simp)) (Or.inl rfl) hbne hbfree
      · have hzne : z ≠ [] := by
          intro h
          rw [h] at hzl
          simp at hzl
        have hgl : (([] : Str) ++ [c] ++ d.dropLast).getLast? = some zl := by
          rw [hdropd, hdrop, List.append_nil, List.nil_append,
            List.getLast?_append_of_ne_nil [c] hzne]
          exact hzl
        have hf : win32Format (win32Parse (c :: t)) =
            c :: (z ++ ['\\'] ++ b) := by
          rw [hfmt]
          simp only [hdirE, Bool.false_eq_true, if_false, hgl]
          have hcond : ((some zl : Option Char) == some '\\') = false :=
            not_sep_ne_backslash zl hzlsep
          simp only [hcond, Bool.false_eq_true, if_false, hdropd, hdrop]
          simp
        rw [ht2] at hm
        rw [hf, ht2]
        exact win32_rt_nodev_sep_core c hc z rr ['\\'] b hm hrrne hrrsep
          (by intro x hx; simp at hx; rw [hx]; rfl)
          (fun h => absurd h (by simp)) (Or.inr ⟨zl, hzl, hzlsep⟩) hbne hbfree
    · obtain ⟨w, hwl⟩ := getLast?_of_ne_nil rr.dropLast hdrop
      have hwsep : isSep w = true := hdlsep' w (getLast?_mem _ w hwl)
      have hzdne : z ++ rr.dropLast ≠ [] := by
        intro h
        rcases List.append_eq_nil.mp h with ⟨_, h2⟩
        exact hdrop h2
      have hgl : (([] : Str) ++ [c] ++ d.dropLast).getLast? = some w := by
        rw [hdropd, List.nil_append, List.getLast?_append_of_ne_nil [c] hzdne,
          List.getLast?_append_of_ne_nil z hdrop]
        exact hwl
      rcases isSep_cases w hwsep with rfl | rfl
      · have hf : win32Format (win32Parse (c :: t)) =
            c :: (z ++ rr.dropLast ++ b) := by
          rw [hfmt]
          simp only [hdirE, Bool.false_eq_true, if_false, hgl]
          have hcond : ((some '\\' : Option Char) == some '\\') = true := rfl
          simp only [hcond, if_true, hdropd]
          simp [List.append_assoc]
        rw [ht2] at hm
        rw [hf, ht2]
        exact win32_rt_nodev_sep_core c hc z rr rr.dropLast b hm hrrne hrrsep
          hdlsep' (fun h => absurd h hdrop) hzend hbne hbfree
      · have hf : win32Format (win32Parse (c :: t)) =
            c :: (z ++ (rr.dropLast ++ ['\\']) ++ b) := by
          rw [hfmt]
          simp only [hdirE, Bool.false_eq_true, if_false, hgl]
          have hcond : ((some '/' : Option Char) == some '\\') = false := by
            decide
          simp only [hcond, Bool.false_eq_true, if_false, hdropd]
          simp [List.append_assoc]
        have hRsep : ∀ x ∈ rr.dropLast ++ ['\\'], isSep x = true := by
          intro x hx
          rcases List.mem_append.mp hx with h | h
          · exact hdlsep' x h
          · simp at h
            rw [h]
            rfl
        rw [ht2] at hm
        rw [hf, ht2]
        exact win32_rt_nodev_sep_core c hc z rr (rr.dropLast ++ ['\\']) b hm
          hrrne hrrsep hRsep (fun h => absurd h (by simp)) hzend hbne hbfree

/-- Round trip for a path with no device that does not start with a
separator. -/
theorem win32_rt_nodev_nonsep (t : Str) (hm : matchDevice t = none)
    (c0 : Char) (cs : Str) (htc : t = c0 :: cs) (hc0 : isSep c0 = false)
    (htlast : ∀ x, t.getLast? = some x → isSep x = false) :
    win32Normalize (win32Format (win32Parse t)) = win32Normalize t := by
  have htne : t ≠ [] := by rw [htc]; simp
  obtain ⟨d, b, hd0, hb0, htdb, hbne, hbfree, hdend⟩ := tail_setup t htne htlast
  have hsd : splitDevice t = ([], [], t) := by
    rw [splitDevice_eq_none _ hm, htc, splitG2_cons_nonsep [] c0 cs hc0]
  have hfmt : win32Format (win32Parse t) =
      (if (([] : Str) ++ [] ++ d.dropLast).isEmpty then b
       else if (([] : Str) ++ [] ++ d.dropLast).getLast? == some '\\' then
         ([] : Str) ++ [] ++ d.dropLast ++ b
       else ([] : Str) ++ [] ++ d.dropLast ++ '\\' :: b) := by
    rw [win32Format_parse]
    simp only [hsd, hd0, hb0]
  rcases hdend with hdnil | ⟨dl, hdl, hdlsep⟩
  · -- empty dir group: format returns the base, which is the whole path
    subst hdnil
    have htb : t = b := by simpa using htdb
    have hf : win32Format (win32Parse t) = t := by
      rw [hfmt, htb]
      simp
    rw [hf]
  · obtain ⟨z, rr, hdzr, hrrne, hrrsep, hzend⟩ := dir_run_setup d dl hdl hdlsep
    have hdropd : d.dropLast = z ++ rr.dropLast := by
      rw [hdzr]
      exact List.dropLast_append_of_ne_nil z hrrne
    have hdlsep' : ∀ x ∈ rr.dropLast, isSep x = true :=
      fun x hx => hrrsep x (List.mem_of_mem_dropLast hx)
    have ht2 : t = z ++ rr ++ b := by rw [htdb, hdzr]
    have hdne : d ≠ [] := by
      intro h
      rw [h] at hdl
      simp at hdl
    obtain ⟨d1, hd1⟩ : ∃ d1, d = c0 :: d1 := by
      cases d with
      | nil => exact absurd rfl hdne
      | cons x xs =>
        have h2 : c0 :: cs = (x :: xs) ++ b := htc.symm.trans htdb
        rw [List.cons_append] at h2
        injection h2 with hx _
        exact ⟨xs, by rw [hx]⟩
    have hzne : z ≠ [] := by
      intro h
      rw [h, List.nil_append] at hdzr
      have hsep : isSep c0 = true := hrrsep c0 (by rw [← hdzr, hd1]; simp)
      rw [hsep] at hc0
      simp at hc0
    rcases hzend with h | ⟨zl, hzl, hzlsep⟩
    · exact absurd h hzne
    obtain ⟨z1, hz1⟩ : ∃ z1, z = c0 :: z1 := by
      cases z with
      | nil => exact absurd rfl hzne
      | cons x xs =>
        have h2 : c0 :: d1 = (x :: xs) ++ rr := by rw [← hd1, hdzr]
        rw [List.cons_append] at h2
        injection h2 with hx _
        exact ⟨xs, by rw [hx]⟩
    have hdirE : ((([] : Str) ++ [] ++ d.dropLast)).isEmpty = false := by
      rw [hdropd, hz1]
      simp
    by_cases hdrop : rr.dropLast = []
    · -- the run has length one: a backslash is inserted after `z`
      have hgl : (([] : Str) ++ [] ++ d.dropLast).getLast? = some zl := by
        rw [hdropd, hdrop, List.append_nil]
        simpa using hzl
      have hf : win32Format (win32Parse t) = z ++ ['\\'] ++ b := by
        rw [hfmt]
        simp only [hdirE, Bool.false_eq_true, if_false, hgl]
        have hcond : ((some zl : Option Char) == some '\\') = false :=
          not_sep_ne_backslash zl hzlsep
        simp only [hcond, Bool.false_eq_true, if_false, hdropd, hdrop]
        simp
      rw [hf, ht2]
      rw [ht2] at hm
      exact win32_rt_nodev_nonsep_core z rr ['\\'] b hm ⟨c0, z1, hz1, hc0⟩
        ⟨zl, hzl, hzlsep⟩ hrrne hrrsep (by simp)
        (by intro x hx; simp at hx; rw [hx]; rfl) hbne hbfree
    · obtain ⟨w, hwl⟩ := getLast?_of_ne_nil rr.dropLast hdrop
      have hwsep : isSep w = true := hdlsep' w (getLast?_mem _ w hwl)
      have hgl : (([] : Str) ++ [] ++ d.dropLast).getLast? = some w := by
        rw [hdropd, List.nil_append, List.nil_append,
          List.getLast?_append_of_ne_nil z hdrop]
        exact hwl
      rcases isSep_cases w hwsep with rfl | rfl
      · have hf : win32Format (win32Parse t) = z ++ rr.dropLast ++ b := by
          rw [hfmt]
          simp only [hdirE, Bool.false_eq_true, if_false, hgl]
          have hcond : ((some '\\' : Option Char) == some '\\') = true := rfl
          simp only [hcond, if_true, hdropd]
          simp [List.append_assoc]
        rw [hf, ht2]
        rw [ht2] at hm
        exact win32_rt_nodev_nonsep_core z rr rr.dropLast b hm ⟨c0, z1, hz1, hc0⟩
          ⟨zl, hzl, hzlsep⟩ hrrne hrrsep hdrop hdlsep' hbne hbfree
      · have hf : win32Format (win32Parse t) =
            z ++ (rr.dropLast ++ ['\\']) ++ b := by
          rw [hfmt]
          simp only [hdirE, Bool.false_eq_true, if_false, hgl]
          have hcond : ((some '/' : Option Char) == some '\\') = false := by
            decide
          simp only [hcond, Bool.false_eq_true, if_false, hdropd]
          simp [List.append_assoc]
        have hRsep : ∀ x ∈ rr.dropLast ++ ['\\'], isSep x = true := by
          intro x hx
          rcases List.mem_append.mp hx with h | h
          · exact hdlsep' x h
          · simp at h
            rw [h]
            rfl
        rw [hf, ht2]
        rw [ht2] at hm
        exact win32_rt_nodev_nonsep_core z rr (rr.dropLast ++ ['\\']) b hm
          ⟨c0, z1, hz1, hc0⟩ ⟨zl, hzl, hzlsep⟩ hrrne hrrsep (by simp) hRsep
          hbne hbfree

/-- Round trip for a path that is exactly a captured device (necessarily
a UNC root under the not-drive-relative hypothesis). -/
theorem win32_rt_dev_nil (p : Str) (dr : Str × Str) (hp : matchDevice p = some dr)
    (hd2 : dr.2 = [])
    (hdev : (statPath p).device ≠ [] → (statPath p).isAbsolute = true) :
    win32Normalize (win32Format (win32Parse p)) = win32Normalize p := by
  have hsd : splitDevice p = (dr.1, [], []) := by
    rw [splitDevice_eq_some p dr hp, hd2, splitG2_nil]
  have hstp : statPath p =
      { device := dr.1, tail := [],
        isUnc := !dr.1.isEmpty && !(dr.1.get? 1 == some ':'),
        isAbsolute := !dr.1.isEmpty && !(dr.1.get? 1 == some ':') } := by
    simp only [statPath, hsd]
    simp
  rcases matchDevice_some_inv p dr hp with ⟨l, r, hsh, hl, hdr⟩ |
    ⟨a, b', host, ss, share, rest, hsh, hdr, ha, hb, hh, hha, hs, hsa, hshr,
      hsha, hrest⟩
  · -- a bare drive letter is not absolute: excluded by the hypothesis
    exfalso
    have hdr1 : dr.1 = [l, ':'] := by rw [hdr]
    have hU : (!dr.1.isEmpty && !(dr.1.get? 1 == some ':')) = false := by
      rw [hdr1]
      rfl
    have hdevne : (statPath p).device ≠ [] := by
      simp only [hstp]
      rw [hdr1]
      simp
    have habs := hdev hdevne
    simp only [hstp] at habs
    rw [hU] at habs
    simp at habs
  · -- UNC root: format appends one backslash, normalization agrees
    have hdr1 : dr.1 = a :: b' :: (host ++ ss ++ share) := by rw [hdr]
    obtain ⟨shl, hshl⟩ := getLast?_of_ne_nil share hshr
    have hshlf : isSep shl = false := hsha shl (getLast?_mem _ shl hshl)
    have hglast : dr.1.getLast? = some shl := by
      rw [hdr1]
      show ([a, b'] ++ (host ++ ss ++ share)).getLast? = some shl
      rw [List.getLast?_append_of_ne_nil [a, b']
          (by simp [hshr]),
        List.getLast?_append_of_ne_nil (host ++ ss) hshr]
      exact hshl
    have hU : (!dr.1.isEmpty && !(dr.1.get? 1 == some ':')) = true := by
      rw [hdr1]
      have hbc : (b' == ':') = false := isSep_ne_colon b' hb
      simp [hbc]
    have hE : dr.1.isEmpty = false := by
      rw [hdr1]
      rfl
    have hf : win32Format (win32Parse p) = dr.1 ++ ['\\'] := by
      rw [win32Format_parse]
      have hsp : splitTailParts isSep win32ExtOk [] = ([], [], []) := rfl
      simp only [hsd, hsp, List.append_nil, List.dropLast_nil]
      simp only [hE, Bool.false_eq_true, if_false, hglast]
      have hcond : ((some shl : Option Char) == some '\\') = false :=
        not_sep_ne_backslash shl hshlf
      simp only [hcond, Bool.false_eq_true, if_false]
    have hstf : statPath (win32Format (win32Parse p)) =
        { device := dr.1, tail := [],
          isUnc := !dr.1.isEmpty && !(dr.1.get? 1 == some ':'),
          isAbsolute := true } := by
      rw [hf]
      exact statPath_dev_sep p dr hp '\\' (by decide) []
    rw [hU] at hstf hstp
    rw [win32Normalize_stat_sep _ dr.1 [] true hstf (by intro x hx; simp at hx),
      win32Normalize_stat_sep _ dr.1 [] true hstp (by intro x hx; simp at hx)]

/-- Claim C2 (win32 half, amended): `normalize(format(parse(p))) =
normalize(p)` for every nonempty `p` that does not end in a separator and
is not drive-relative (a device with no following separator). -/
theorem win32_roundTrip (p : Str) (hne : p ≠ [])
    (hlast : ∀ c, p.getLast? = some c → isSep c = false)
    (hdev : (statPath p).device ≠ [] → (statPath p).isAbsolute = true) :
    win32Normalize (win32Format (win32Parse p)) = win32Normalize p := by
  cases hm : matchDevice p with
  | none =>
    cases p with
    | nil => exact absurd rfl hne
    | cons c0 q =>
      by_cases hc0 : isSep c0 = true
      · have hqne : q ≠ [] := by
          intro h
          subst h
          have := hlast c0 rfl
          rw [this] at hc0
          simp at hc0
        have hqlast : ∀ x, q.getLast? = some x → isSep x = false := by
          intro x hx
          apply hlast x
          show ([c0] ++ q).getLast? = some x
          rw [List.getLast?_append_of_ne_nil [c0] hqne]
          exact hx
        exact win32_rt_nodev_sep c0 hc0 q hm hqne hqlast
      · exact win32_rt_nodev_nonsep (c0 :: q) hm c0 q rfl
          (by simpa using hc0) hlast
  | some dr =>
    cases hd2 : dr.2 with
    | nil => exact win32_rt_dev_nil p dr hm hd2 hdev
    | cons c w =>
      have hpe : p = dr.1 ++ c :: w := by
        have h := matchDevice_append p dr hm
        rw [hd2] at h
        exact h
      by_cases hcsep : isSep c = true
      · cases w with
        | nil =>
          exfalso
          have hl : p.getLast? = some c := by
            rw [hpe, List.getLast?_append_of_ne_nil dr.1 (by simp)]
            rfl
          have := hlast c hl
          rw [this] at hcsep
          simp at hcsep
        | cons w0 ws =>
          have hwlast : ∀ x, (w0 :: ws).getLast? = some x → isSep x = false := by
            intro x hx
            apply hlast x
            rw [hpe, List.getLast?_append_of_ne_nil dr.1 (by simp),
              List.getLast?_cons_cons]
            exact hx
          exact win32_rt_dev_sep p dr hm c hcsep (w0 :: ws) hd2 (by simp) hwlast
      · -- a device followed by a non-separator cannot be matched
        exfalso
        rcases matchDevice_some_inv p dr hm with ⟨l, r, hsh, hl, hdr⟩ |
          ⟨a, b', host, ss, share, rest, hsh, hdr, ha, hb, hh, hha, hs, hsa,
            hshr, hsha, hrest⟩
        · -- drive letter followed by a non-separator: not absolute
          have hsd : splitDevice p = (dr.1, [], c :: w) := by
            rw [splitDevice_eq_some p dr hm, hd2,
              splitG2_cons_nonsep _ c w (by simpa using hcsep)]
          have hstp : statPath p =
              { device := dr.1, tail := c :: w,
                isUnc := !dr.1.isEmpty && !(dr.1.get? 1 == some ':'),
                isAbsolute := !dr.1.isEmpty && !(dr.1.get? 1 == some ':') } := by
            simp only [statPath, hsd]
            simp
          have hdr1 : dr.1 = [l, ':'] := by rw [hdr]
          have hU : (!dr.1.isEmpty && !(dr.1.get? 1 == some ':')) = false := by
            rw [hdr1]
            rfl
          have hdevne : (statPath p).device ≠ [] := by
            simp only [hstp]
            rw [hdr1]
            simp
          have habs := hdev hdevne
          simp only [hstp] at habs
          rw [hU] at habs
          simp at habs
        · -- a UNC capture is always followed by a separator or the end
          have hr2 : dr.2 = rest := by rw [hdr]
          rcases hrest with hr0 | ⟨x, xs, hx, hxs⟩
          · rw [hr2, hr0] at hd2
            simp at hd2
          · rw [hr2, hx] at hd2
            injection hd2 with h1 _
            rw [h1] at hxs
            exact hcsep hxs

/-- Claim C2 (corrected): counterexamples to the literal claim.  On posix,
`format(parse("a/"))` is `"a"`, which normalizes to `"a"`, while
`normalize("a/") = "a/"` keeps the trailing separator.  On win32, the
drive-relative `"C:a"` is formatted as `"C:\a"`, which normalizes to
`"C:\a"`, while `normalize("C:a") = "C:a"`. -/
theorem C2_counterexample :
    posixNormalize (posixFormat (posixParse ['a', '/'])) ≠
      posixNormalize ['a', '/'] ∧
    win32Normalize (win32Format (win32Parse ['C', ':', 'a'])) ≠
      win32Normalize ['C', ':', 'a'] := by
  constructor <;> decide

/-- Claim C2 (amended): `format ∘ parse` preserves a path up to
normalization — `normalize(format(parse(p))) = normalize(p)` — for every
nonempty `p` that does not end in a separator, provided (on the Windows
driver) `p` is not drive-relative: whenever a device is captured the path
is absolute. -/
theorem C2_roundtrip :
    (∀ p : Str, p ≠ [] → p.getLast? ≠ some '/' →
      posixNormalize (posixFormat (posixParse p)) = posixNormalize p) ∧
    (∀ p : Str, p ≠ [] → (∀ c, p.getLast? = some c → isSep c = false) →
      ((statPath p).device ≠ [] → (statPath p).isAbsolute = true) →
      win32Normalize (win32Format (win32Parse p)) = win32Normalize p) :=
  ⟨posix_roundTrip, win32_roundTrip⟩

/-- Witness: the round trip at the concrete paths `"/a/b"` (posix) and
`"C:\x"` (win32). -/
theorem C2_roundtrip_witness :
    posixNormalize (posixFormat (posixParse ['/', 'a', '/', 'b'])) =
      posixNormalize ['/', 'a', '/', 'b'] ∧
    win32Normalize (win32Format (win32Parse ['C', ':', '\\', 'x'])) =
      win32Normalize ['C', ':', '\\', 'x'] :=
  ⟨C2_roundtrip.1 ['/', 'a', '/', 'b'] (by decide) (by decide),
   C2_roundtrip.2 ['C', ':', '\\', 'x'] (by decide)
     (by
       intro c hc
       have h : 'x' = c := by simpa using hc
       rw [← h]
       rfl)
     (by decide)⟩
